import Mathlib

/-!
Verification of the two production-planning solvers of this repository:

* `src/belts/main.py` — a feasible-flow-with-lower-bounds solver reducing to
  max-flow (`solve_belt_problem`, `_format_success`, `_format_infeasible`,
  and the `__main__` input assembly);
* `src/factory/main.py` — a two-phase LP solver over recipe activities
  (`_preprocess_constants`, `_build_model`, `_format_success_output`,
  `_solve_and_format_max_rate`).

Shallow embedding conventions:

* Python numbers (floats fed through `fractions.Fraction` on the Factory
  side, plain floats on the Belts side) are modelled as exact rationals `ℚ`;
  `float('inf')` on the Belts side is modelled by the dedicated type `QCap`.
* Python `dict`s are association lists with insert-or-overwrite assignment
  that preserves the position of an existing key, exactly like CPython.
* Python string sorting (`sorted`), `str.split`, and `str.endswith` are
  re-implemented over `String.data` with code-point comparisons, matching
  CPython semantics on the relevant inputs.
* Calls into external libraries (`networkx.maximum_flow`,
  `networkx.dfs_preorder_nodes`, the CBC LP solver behind `pulp`) are not
  code of this repository; their results enter the embedding as explicit
  oracle parameters (a flow function and value, a reachable-node list, an
  LP outcome record).
-/

/-- The shared tolerance `TOLERANCE = 1e-9` of both solvers. -/
def tol : ℚ := 1 / 1000000000

/-- Lexicographic comparison of character lists by code point; this is the
ordering CPython's `sorted` uses on `str` values. -/
def lexLe : List Char → List Char → Bool
  | [], _ => true
  | _ :: _, [] => false
  | a :: as, b :: bs =>
      if a.toNat < b.toNat then true
      else if b.toNat < a.toNat then false
      else lexLe as bs

/-- CPython string ordering as a proposition. -/
def strLeP (a b : String) : Prop := lexLe a.data b.data = true

instance : DecidableRel strLeP :=
  fun a b => inferInstanceAs (Decidable (lexLe a.data b.data = true))

theorem lexLe_total : ∀ l₁ l₂ : List Char, lexLe l₁ l₂ = true ∨ lexLe l₂ l₁ = true := by
  intro l₁
  induction l₁ with
  | nil => intro l₂; left; rfl
  | cons a as ih =>
    intro l₂
    cases l₂ with
    | nil => right; rfl
    | cons b bs =>
      rcases Nat.lt_trichotomy a.toNat b.toNat with h | h | h
      · left; simp [lexLe, h]
      · have hba : ¬ b.toNat < a.toNat := by omega
        have hab : ¬ a.toNat < b.toNat := by omega
        rcases ih bs with h' | h'
        · left; simp [lexLe, hab, hba, h']
        · right; simp [lexLe, hab, hba, h']
      · right; simp [lexLe, h]

theorem lexLe_trans : ∀ l₁ l₂ l₃ : List Char,
    lexLe l₁ l₂ = true → lexLe l₂ l₃ = true → lexLe l₁ l₃ = true := by
  intro l₁
  induction l₁ with
  | nil => intro l₂ l₃ _ _; rfl
  | cons a as ih =>
    intro l₂ l₃ h12 h23
    cases l₂ with
    | nil => simp [lexLe] at h12
    | cons b bs =>
      cases l₃ with
      | nil => simp [lexLe] at h23
      | cons c cs =>
        simp only [lexLe] at h12 h23 ⊢
        rcases Nat.lt_trichotomy a.toNat b.toNat with hab | hab | hab
        · rcases Nat.lt_trichotomy b.toNat c.toNat with hbc | hbc | hbc
          · have h : a.toNat < c.toNat := Nat.lt_trans hab hbc
            simp [h]
          · have h : a.toNat < c.toNat := by omega
            simp [h]
          · rw [if_neg (by omega), if_pos hbc] at h23
            exact absurd h23 (by simp)
        · rw [if_neg (by omega), if_neg (by omega)] at h12
          rcases Nat.lt_trichotomy b.toNat c.toNat with hbc | hbc | hbc
          · have h : a.toNat < c.toNat := by omega
            simp [h]
          · rw [if_neg (by omega), if_neg (by omega)] at h23
            rw [if_neg (by omega), if_neg (by omega)]
            exact ih bs cs h12 h23
          · rw [if_neg (by omega), if_pos hbc] at h23
            exact absurd h23 (by simp)
        · rw [if_neg (by omega), if_pos hab] at h12
          exact absurd h12 (by simp)

instance : IsTotal String strLeP := ⟨fun a b => lexLe_total a.data b.data⟩

instance : IsTrans String strLeP := ⟨fun a b c => lexLe_trans a.data b.data c.data⟩

/-- CPython's `sorted` on a list of strings (ascending by code points). -/
def sortStrings (l : List String) : List String := l.insertionSort strLeP

theorem mem_sortStrings {s : String} {l : List String} : s ∈ sortStrings l ↔ s ∈ l :=
  (List.perm_insertionSort strLeP l).mem_iff

theorem sorted_sortStrings (l : List String) : (sortStrings l).Sorted strLeP :=
  List.sorted_insertionSort strLeP l

theorem nodup_sortStrings {l : List String} (h : l.Nodup) : (sortStrings l).Nodup :=
  ((List.perm_insertionSort strLeP l).nodup_iff).mpr h

/-- CPython `str.split(sep)` worker over character lists (`sep` one char). -/
def splitChars (sep : Char) : List Char → List Char → List (List Char)
  | [], acc => [acc.reverse]
  | c :: cs, acc =>
      if c = sep then acc.reverse :: splitChars sep cs []
      else splitChars sep cs (c :: acc)

/-- `s.split(sep)[0]` for a one-character separator, CPython semantics. -/
def pySplitHead (s : String) (sep : Char) : String :=
  ⟨(splitChars sep s.data []).headD []⟩

/-- CPython `s.endswith(suffix)`. -/
def pyEndsWith (s suffix : String) : Bool := suffix.data.isSuffixOf s.data

/-- Association-list lookup (first occurrence; keys of a Python dict are
unique, so this is the dict lookup). -/
def alook {κ β : Type} [DecidableEq κ] : List (κ × β) → κ → Option β
  | [], _ => none
  | p :: ps, k => if p.1 = k then some p.2 else alook ps k

/-- Dict-style insert-or-overwrite on an association list: an existing key
keeps its position and gets the new value, a new key is appended.  This is
exactly CPython `d[k] = v`. -/
def dset {κ β : Type} [DecidableEq κ] (m : List (κ × β)) (k : κ) (v : β) : List (κ × β) :=
  if (alook m k).isSome then m.map (fun p => if p.1 = k then (k, v) else p)
  else m ++ [(k, v)]

theorem alook_append {κ β : Type} [DecidableEq κ] (m m' : List (κ × β)) (k : κ) :
    alook (m ++ m') k = match alook m k with
      | some v => some v
      | none => alook m' k := by
  induction m with
  | nil => simp [alook]
  | cons p ps ih =>
    by_cases hpk : p.1 = k
    · simp [alook, hpk]
    · simp [alook, hpk, ih]

theorem alook_replace_self {κ β : Type} [DecidableEq κ] (m : List (κ × β)) (k : κ) (v : β)
    (h : (alook m k).isSome) :
    alook (m.map (fun p => if p.1 = k then (k, v) else p)) k = some v := by
  induction m with
  | nil => simp [alook] at h
  | cons p ps ih =>
    by_cases hpk : p.1 = k
    · simp [alook, hpk]
    · simp only [alook, if_neg hpk] at h
      simp [alook, hpk, ih h]

theorem alook_replace_ne {κ β : Type} [DecidableEq κ] (m : List (κ × β)) (k k' : κ) (v : β)
    (h : k' ≠ k) :
    alook (m.map (fun p => if p.1 = k then (k, v) else p)) k' = alook m k' := by
  induction m with
  | nil => simp [alook]
  | cons p ps ih =>
    by_cases hpk : p.1 = k
    · have h1 : k ≠ k' := fun he => h he.symm
      have h2 : ¬ p.1 = k' := by rw [hpk]; exact h1
      simp [alook, hpk, h1, h2, ih]
    · by_cases hpk' : p.1 = k'
      · simp [alook, hpk, hpk', h]
      · simp [alook, hpk, hpk', ih]

theorem alook_dset_self {κ β : Type} [DecidableEq κ] (m : List (κ × β)) (k : κ) (v : β) :
    alook (dset m k v) k = some v := by
  unfold dset
  split
  · next h => exact alook_replace_self m k v h
  · next h =>
    rw [alook_append]
    cases hc : alook m k with
    | none => simp [alook]
    | some w => rw [hc] at h; simp at h

theorem alook_dset_ne {κ β : Type} [DecidableEq κ] (m : List (κ × β)) (k k' : κ) (v : β)
    (h : k' ≠ k) : alook (dset m k v) k' = alook m k' := by
  unfold dset
  split
  · exact alook_replace_ne m k k' v h
  · rw [alook_append]
    cases hc : alook m k' with
    | none => simp [alook, Ne.symm h]
    | some w => simp

theorem dset_of_alook_none {κ β : Type} [DecidableEq κ] (m : List (κ × β)) (k : κ) (v : β)
    (h : alook m k = none) : dset m k v = m ++ [(k, v)] := by
  unfold dset
  rw [h]
  simp

/-! ### String-suffix facts for the `_in` / `_out` node-splitting scheme -/

theorem getLast?_data_append (a s : String) (c : Char)
    (h : s.data.getLast? = some c) : (a ++ s).data.getLast? = some c := by
  rw [String.data_append, List.getLast?_append, h]
  rfl

theorem append_in_inj {a b : String} (h : a ++ "_in" = b ++ "_in") : a = b := by
  have hd : a.data ++ ("_in" : String).data = b.data ++ ("_in" : String).data := by
    simpa [String.data_append] using congrArg String.data h
  exact String.ext (List.append_cancel_right hd)

theorem append_out_inj {a b : String} (h : a ++ "_out" = b ++ "_out") : a = b := by
  have hd : a.data ++ ("_out" : String).data = b.data ++ ("_out" : String).data := by
    simpa [String.data_append] using congrArg String.data h
  exact String.ext (List.append_cancel_right hd)

theorem append_in_ne_append_out (a b : String) : a ++ "_in" ≠ b ++ "_out" := by
  intro h
  have h1 : (a ++ "_in").data.getLast? = some 'n' := getLast?_data_append a "_in" 'n' rfl
  have h2 : (b ++ "_out").data.getLast? = some 't' := getLast?_data_append b "_out" 't' rfl
  rw [h, h2] at h1
  simp at h1

/-- Name of the super-source node `S*`. -/
def sStar : String := "_s_star_"

/-- Name of the super-sink node `T*`. -/
def tStar : String := "_t_star_"

theorem append_in_ne_sStar (a : String) : a ++ "_in" ≠ sStar := by
  intro h
  have h1 : (a ++ "_in").data.getLast? = some 'n' := getLast?_data_append a "_in" 'n' rfl
  rw [h] at h1
  simp [sStar] at h1

theorem append_out_ne_sStar (a : String) : a ++ "_out" ≠ sStar := by
  intro h
  have h1 : (a ++ "_out").data.getLast? = some 't' := getLast?_data_append a "_out" 't' rfl
  rw [h] at h1
  simp [sStar] at h1

theorem append_in_ne_tStar (a : String) : a ++ "_in" ≠ tStar := by
  intro h
  have h1 : (a ++ "_in").data.getLast? = some 'n' := getLast?_data_append a "_in" 'n' rfl
  rw [h] at h1
  simp [tStar] at h1

theorem append_out_ne_tStar (a : String) : a ++ "_out" ≠ tStar := by
  intro h
  have h1 : (a ++ "_out").data.getLast? = some 't' := getLast?_data_append a "_out" 't' rfl
  rw [h] at h1
  simp [tStar] at h1

/-! ### Belts: data model (`src/belts/main.py`) -/

/-- A finite-or-infinite capacity, modelling Python floats where
`float('inf')` is a possible value. -/
inductive QCap where
  | inf : QCap
  | fin : ℚ → QCap
deriving DecidableEq

/-- `hi - lo` where `hi` may be infinite (Python float subtraction). -/
def QCap.sub (c : QCap) (q : ℚ) : QCap :=
  match c with
  | .inf => .inf
  | .fin x => .fin (x - q)

/-- `hi < lo` where `hi` may be infinite (Python float comparison). -/
def QCap.ltQ (c : QCap) (q : ℚ) : Prop :=
  match c with
  | .inf => False
  | .fin x => x < q

instance (c : QCap) (q : ℚ) : Decidable (c.ltQ q) := by
  cases c <;> simp [QCap.ltQ] <;> infer_instance

/-- One value of the `node_data` dict: a Python dict possibly holding the
keys `"supply"`, `"demand"`, `"cap"`. -/
structure NodeRec where
  supply : Option ℚ := none
  demand : Option ℚ := none
  cap : Option ℚ := none
deriving DecidableEq

instance : Inhabited NodeRec := ⟨{}⟩

/-- The `node_data` argument of `solve_belt_problem`: a Python dict in
insertion order. -/
abbrev NodeData := List (String × NodeRec)

/-- One entry of the `graph_data` list: a JSON edge object with required
`from`/`to` and optional `lo`/`hi`. -/
structure BEdge where
  src : String
  dst : String
  lo : Option ℚ := none
  hi : Option ℚ := none
deriving DecidableEq

/-- `edge.get("lo", 0)`. -/
def BEdge.loVal (e : BEdge) : ℚ := e.lo.getD 0

/-- `edge.get("hi", float('inf'))`. -/
def BEdge.hiVal (e : BEdge) : QCap :=
  match e.hi with
  | some q => .fin q
  | none => .inf

/-- An element of the `original_edges` list `(u, v, lo, hi)`. -/
structure OrigEdge where
  u : String
  v : String
  lo : ℚ
  hi : QCap
deriving DecidableEq

/-- The transformed `nx.DiGraph`, as its edge→capacity dict.  `nx.DiGraph`
is a simple digraph: `add_edge` on an existing pair overwrites its
capacity attribute. -/
abbrev GraphL := List ((String × String) × QCap)

/-- `G.add_edge(u, v, capacity=c)`: insert-or-overwrite, like `dset`. -/
def gset (g : GraphL) (u v : String) (c : QCap) : GraphL := dset g (u, v) c

/-- Capacity lookup in the transformed graph. -/
def glook (g : GraphL) (u v : String) : Option QCap := alook g (u, v)

/-- `data.get("cap", float('inf'))`. -/
def NodeRec.capVal (r : NodeRec) : QCap :=
  match r.cap with
  | some q => .fin q
  | none => .inf

/-- State accumulated by the node-splitting loop of `solve_belt_problem`
(lines 22–39): the transformed graph, the `node_balance` dict (order
matters: it is iterated to add the `S*`/`T*` edges), the `original_sources`
set and the `sink_node` variable. -/
structure PreState where
  g : GraphL
  bal : List (String × ℚ)
  sources : List String
  sink : Option String

/-- Body of the node loop (lines 22–39 of `src/belts/main.py`). -/
def procNode (st : PreState) (p : String × NodeRec) : PreState :=
  let vin := p.1 ++ "_in"
  let vout := p.1 ++ "_out"
  let g1 := gset st.g vin vout p.2.capVal
  let b0 := dset (dset st.bal vin 0) vout 0
  let supply := p.2.supply.getD 0
  let b1 := if 0 < supply then dset b0 vout ((alook b0 vout).getD 0 + supply) else b0
  let sources1 := if 0 < supply then st.sources ++ [p.1] else st.sources
  let demand := p.2.demand.getD 0
  let b2 := if 0 < demand then dset b1 vin ((alook b1 vin).getD 0 - demand) else b1
  let sink1 := if 0 < demand then some p.1 else st.sink
  { g := g1, bal := b2, sources := sources1, sink := sink1 }

/-- The node-splitting loop over the `node_data` dict. -/
def procNodes (nodeData : NodeData) (st : PreState) : PreState :=
  nodeData.foldl procNode st

/-- Body and loop of the edge pass (lines 41–56).  `hi < lo` raises
`ValueError`; a `from`/`to` name that is not a key of `node_data` raises
`KeyError` at the `node_balance` update (both surface as the `error`
status at the process boundary). -/
def procEdges : List BEdge → PreState → List OrigEdge →
    Except String (PreState × List OrigEdge)
  | [], st, acc => .ok (st, acc)
  | e :: es, st, acc =>
      let lo := e.loVal
      let hi := e.hiVal
      if hi.ltQ lo then
        .error ("Edge (" ++ e.src ++ " -> " ++ e.dst ++ ") has hi < lo")
      else
        let acc1 := acc ++ [⟨e.src, e.dst, lo, hi⟩]
        let uOut := e.src ++ "_out"
        let vIn := e.dst ++ "_in"
        let g1 := gset st.g uOut vIn (hi.sub lo)
        match alook st.bal uOut with
        | none => .error ("KeyError: " ++ uOut)
        | some bu =>
            let bal1 := dset st.bal uOut (bu - lo)
            match alook bal1 vIn with
            | none => .error ("KeyError: " ++ vIn)
            | some bv =>
                let bal2 := dset bal1 vIn (bv + lo)
                procEdges es { st with g := g1, bal := bal2 } acc1

/-- The super-source/super-sink pass (lines 58–67): iterate the
`node_balance` dict in insertion order, adding `S* → n` / `n → T*` edges
and accumulating `total_demand_required`. -/
def superPhase (bal : List (String × ℚ)) (g : GraphL) : GraphL × ℚ :=
  bal.foldl
    (fun p kv =>
      if 0 < kv.2 then (gset p.1 sStar kv.1 (.fin kv.2), p.2)
      else if kv.2 < 0 then (gset p.1 kv.1 tStar (.fin (-kv.2)), p.2 + (-kv.2))
      else p)
    (g, 0)

/-- The fully transformed max-flow instance produced by lines 13–67 of
`solve_belt_problem`, before `nx.maximum_flow` runs. -/
structure TransState where
  g : GraphL
  bal : List (String × ℚ)
  sources : List String
  origEdges : List OrigEdge
  total : ℚ

instance : Inhabited TransState := ⟨⟨[], [], [], [], 0⟩⟩

/-- Lines 13–67 of `solve_belt_problem`: build the transformed instance. -/
def buildTransformed (graphData : List BEdge) (nodeData : NodeData) :
    Except String TransState :=
  let st0 : PreState := { g := [], bal := [], sources := [], sink := none }
  let st1 := procNodes nodeData st0
  match procEdges graphData st1 [] with
  | .error m => .error m
  | .ok (st2, origEdges) =>
      let gr := superPhase st2.bal st2.g
      .ok { g := gr.1, bal := st2.bal, sources := st2.sources,
            origEdges := origEdges, total := gr.2 }

/-- A per-edge flow function: `flow_dict.get(u, {}).get(v, 0)` for the
flow dict returned by `nx.maximum_flow`. -/
abbrev FlowFn := String → String → ℚ

/-- Belts response documents. -/
inductive BeltsResult where
  | error (msg : String)
  | ok (maxFlow : ℚ) (flows : List (String × String × ℚ))
  | infeasible (cutReachable : List String) (demandBalance : ℚ)
      (tightNodes : List String) (tightEdges : List (String × String))
deriving DecidableEq

/-- `node_data[src].get("supply", 0)`. -/
def supplyOf (nodeData : NodeData) (s : String) : ℚ :=
  ((alook nodeData s).getD default).supply.getD 0

/-- `_format_success` (lines 87–106). -/
def formatSuccessB (fd : FlowFn) (origEdges : List OrigEdge)
    (sources : List String) (nodeData : NodeData) : BeltsResult :=
  let totalSupply := sources.foldl (fun acc s => acc + supplyOf nodeData s) 0
  let flows := origEdges.foldl
    (fun acc e =>
      let f := fd (e.u ++ "_out") (e.v ++ "_in") + e.lo
      if tol < f then acc ++ [(e.u, e.v, f)] else acc)
    []
  .ok totalSupply flows

/-- Python `set.add` on a list model: dedup-inserting append. -/
def insertNew (l : List String) (s : String) : List String :=
  if s ∈ l then l else l ++ [s]

/-- The `cut_reachable` computation of `_format_infeasible`
(lines 132–137): original-name recovery via `n.split("_")[0]`. -/
def cutReachableOf (reach : List String) : List String :=
  sortStrings (reach.foldl
    (fun acc n =>
      if pyEndsWith n "_in" || pyEndsWith n "_out" then
        insertNew acc (pySplitHead n '_')
      else if n ≠ sStar ∧ n ≠ tStar then insertNew acc n
      else acc)
    [])

/-- `abs(f_prime - adjusted_capacity) < TOLERANCE` where the adjusted
capacity may be infinite (`abs(f - inf) < tol` is false in Python). -/
def QCap.tight (c : QCap) (f : ℚ) : Prop :=
  match c with
  | .inf => False
  | .fin x => |f - x| < tol

instance (c : QCap) (f : ℚ) : Decidable (c.tight f) := by
  cases c <;> simp [QCap.tight] <;> infer_instance

/-- `_format_infeasible` (lines 121–170).  `reach` is the node set
returned by `networkx.dfs_preorder_nodes` on the residual graph (an
external library call, supplied as an oracle). -/
def formatInfeasibleB (fd : FlowFn) (flowValue totalDemand : ℚ)
    (origEdges : List OrigEdge) (nodeData : NodeData)
    (reach : List String) : BeltsResult :=
  let tightNodes := nodeData.foldl
    (fun acc p =>
      match p.2.cap with
      | none => acc
      | some cap =>
          if (p.1 ++ "_in") ∈ reach ∧ (p.1 ++ "_out") ∉ reach ∧
              |fd (p.1 ++ "_in") (p.1 ++ "_out") - cap| < tol then
            acc ++ [p.1]
          else acc)
    []
  let tightEdges := origEdges.foldl
    (fun acc e =>
      if (e.u ++ "_out") ∈ reach ∧ (e.v ++ "_in") ∉ reach ∧
          (e.hi.sub e.lo).tight (fd (e.u ++ "_out") (e.v ++ "_in")) then
        acc ++ [(e.u, e.v)]
      else acc)
    []
  .infeasible (cutReachableOf reach) (totalDemand - flowValue)
    (sortStrings tightNodes) tightEdges

/-- `solve_belt_problem` (lines 7–85).  The `nx.maximum_flow` call is an
external library call; its outcome is the oracle `mf` (`none` models the
`nx.NetworkXUnbounded` exception).  `reach` is the DFS oracle used on the
infeasible path. -/
def solveBelt (graphData : List BEdge) (nodeData : NodeData)
    (mf : Option (ℚ × FlowFn)) (reach : List String) : BeltsResult :=
  match buildTransformed graphData nodeData with
  | .error m => .error m
  | .ok st =>
      match mf with
      | none => .error "Unbounded flow detected. Check for edges with infinite capacity."
      | some (fv, fd) =>
          if |fv - st.total| < tol then
            formatSuccessB fd st.origEdges st.sources nodeData
          else
            formatInfeasibleB fd fv st.total st.origEdges nodeData reach

/-! ### Belts: `__main__` input assembly (lines 172–207) -/

/-- The decoded Belts request document.  `sources` maps a name to the
optional `"supply"` field, `nodes` maps a name to the optional
`"capacity"` field, `sink` is `sink.get("name")`. -/
structure BeltsInput where
  sources : List (String × Option ℚ)
  nodes : List (String × Option ℚ)
  sink : Option String
  edges : List BEdge

/-- The record a `nodes` entry produces (lines 188–192): `{"cap": c}`
when a `"capacity"` is declared, `{}` otherwise. -/
def nodeRecOf (c : Option ℚ) : NodeRec :=
  match c with
  | some cp => { cap := some cp }
  | none => {}

/-- Lines 178–200: build the `node_data` dict (sources first, then
`nodes` entries, then the sink record) and `total_supply`.  A missing or
empty sink name raises `ValueError`. -/
def buildNodeData (inp : BeltsInput) : Except String (NodeData × ℚ) :=
  let s1 := inp.sources.foldl
    (fun (p : NodeData × ℚ) sv =>
      let supply := sv.2.getD 0
      (dset p.1 sv.1 { supply := some supply }, p.2 + supply))
    ([], 0)
  let nd2 := inp.nodes.foldl
    (fun nd p => dset nd p.1 (nodeRecOf p.2))
    s1.1
  match inp.sink with
  | none => .error "Input JSON missing 'sink' object with 'name'"
  | some sinkName =>
      if sinkName = "" then .error "Input JSON missing 'sink' object with 'name'"
      else .ok (dset nd2 sinkName { demand := some s1.2 }, s1.2)

/-- The whole `__main__` body after JSON decoding (lines 174–207). -/
def beltsMain (inp : BeltsInput) (mf : Option (ℚ × FlowFn))
    (reach : List String) : BeltsResult :=
  match buildNodeData inp with
  | .error m => .error m
  | .ok (nd, _) =>
      if inp.edges = [] then .error "Missing 'edges' data."
      else if inp.sources = [] then .error "Missing 'sources' or 'sink' data."
      else solveBelt inp.edges nd mf reach

/-! ### Factory: data model (`src/factory/main.py`) -/

/-- One entry of the `recipes` mapping. -/
structure FRecipe where
  machine : String
  time_s : ℚ
  inp : List (String × ℚ) := []
  out : List (String × ℚ) := []
deriving DecidableEq

/-- One entry of the `machines` mapping. -/
structure FMachine where
  crafts_per_min : ℚ
deriving DecidableEq

/-- One entry of the `modules` mapping (`speed` / `prod` optional). -/
structure FModule where
  speed : Option ℚ := none
  prod : Option ℚ := none
deriving DecidableEq

instance : Inhabited FModule := ⟨{}⟩

/-- The `constants` dict produced by `_preprocess_constants`
(lines 67–145).  All numbers are exact rationals, mirroring the
`fractions.Fraction` arithmetic of the source. -/
structure FConsts where
  effOutputs : List (String × List (String × ℚ))
  fracInputs : List (String × List (String × ℚ))
  machineCosts : List (String × ℚ)
  recipeMachines : List (String × String)
  producedItems : List String
  allItems : List String
  recipeNames : List String
  machineTypes : List String
  rawItems : List String
  targetItem : String
  machineCaps : List (String × ℚ)
  rawCaps : List (String × ℚ)
  intermediateItems : List String
deriving DecidableEq

instance : Inhabited FConsts :=
  ⟨⟨[], [], [], [], [], [], [], [], [], "", [], [], []⟩⟩

/-- The recipe loop of `_preprocess_constants` (lines 95–135), threading
the accumulators `(eff_outputs, frac_inputs, machine_costs,
recipe_machines, all_items, all_produced_items)`.  An unknown machine or
`time_s <= 0` raises `ValueError`; a non-positive effective craft rate
reaches `Fraction(1, 10**-30)`, which raises `TypeError` in Python. -/
def prepLoop (machines : List (String × FMachine))
    (modules : List (String × FModule)) :
    List (String × FRecipe) →
    List (String × List (String × ℚ)) → List (String × List (String × ℚ)) →
    List (String × ℚ) → List (String × String) → List String → List String →
    Except String
      (List (String × List (String × ℚ)) × List (String × List (String × ℚ)) ×
       List (String × ℚ) × List (String × String) × List String × List String)
  | [], effO, fracI, costs, rmach, items, produced =>
      .ok (effO, fracI, costs, rmach, items, produced)
  | (rName, rd) :: rs, effO, fracI, costs, rmach, items, produced =>
      match alook machines rd.machine with
      | none =>
          .error ("Recipe '" ++ rName ++ "' uses unknown machine '" ++ rd.machine ++ "'")
      | some mspec =>
          let moduleRec := (alook modules rd.machine).getD {}
          let speedMod := moduleRec.speed.getD 0
          let prodMod := moduleRec.prod.getD 0
          let baseSpeed := mspec.crafts_per_min
          if rd.time_s ≤ 0 then
            .error ("Recipe '" ++ rName ++ "' has invalid time_s <= 0")
          else
            let eff := baseSpeed * (1 + speedMod) * 60 / rd.time_s
            if eff ≤ 0 then
              .error "TypeError: both arguments should be Rational instances"
            else
              prepLoop machines modules rs
                (effO ++ [(rName, rd.out.map (fun p => (p.1, p.2 * (1 + prodMod))))])
                (fracI ++ [(rName, rd.inp)])
                (costs ++ [(rName, 1 / eff)])
                (rmach ++ [(rName, rd.machine)])
                ((items ++ rd.out.map Prod.fst) ++ rd.inp.map Prod.fst)
                (produced ++ rd.out.map Prod.fst)

/-- `_preprocess_constants` (lines 67–145). -/
def preprocess (recipes : List (String × FRecipe))
    (machines : List (String × FMachine)) (modules : List (String × FModule))
    (rawCaps : List (String × ℚ)) (machineCaps : List (String × ℚ))
    (targetItem : String) : Except String FConsts :=
  match prepLoop machines modules recipes [] [] [] [] [] [] with
  | .error m => .error m
  | .ok (effO, fracI, costs, rmach, items, produced) =>
      let rawItems := rawCaps.map Prod.fst
      let inter0 := produced.dedup.filter (fun i => i ∉ rawItems ∧ i ≠ targetItem)
      let inter := if targetItem ∈ produced then inter0 ++ [targetItem] else inter0
      .ok { effOutputs := effO, fracInputs := fracI, machineCosts := costs,
            recipeMachines := rmach, producedItems := produced,
            allItems := sortStrings items.dedup,
            recipeNames := sortStrings (recipes.map Prod.fst),
            machineTypes := sortStrings (machineCaps.map Prod.fst),
            rawItems := rawItems, targetItem := targetItem,
            machineCaps := machineCaps, rawCaps := rawCaps,
            intermediateItems := inter }

/-- `constants["eff_outputs"][r].get(item, 0)`. -/
def effOut (c : FConsts) (r i : String) : ℚ :=
  (alook ((alook c.effOutputs r).getD []) i).getD 0

/-- `constants["frac_inputs"][r].get(item, 0)`. -/
def fracIn (c : FConsts) (r i : String) : ℚ :=
  (alook ((alook c.fracInputs r).getD []) i).getD 0

/-- `constants["machine_costs"][r]`. -/
def costOf (c : FConsts) (r : String) : ℚ := (alook c.machineCosts r).getD 0

/-- `constants["recipe_machines"][r]`. -/
def machOf (c : FConsts) (r : String) : String := (alook c.recipeMachines r).getD ""

/-- The net balance `B_i(x)` built in `_build_model` (lines 181–188). -/
def Bi (c : FConsts) (x : String → ℚ) (i : String) : ℚ :=
  (c.recipeNames.map (fun r => (effOut c r i - fracIn c r i) * x r)).sum

/-- The machine-usage expression of `_build_model` (lines 214–219). -/
def usage (c : FConsts) (x : String → ℚ) (m : String) : ℚ :=
  ((c.recipeNames.filter (fun r => machOf c r = m)).map (fun r => costOf c r * x r)).sum

/-- The raw-cap constraint added when `item in constants["raw_caps"]`
(lines 203–208). -/
def rawCapCon (c : FConsts) (x : String → ℚ) (i : String) : Prop :=
  match alook c.rawCaps i with
  | some cap => -cap ≤ Bi c x i
  | none => True

instance (c : FConsts) (x : String → ℚ) (i : String) : Decidable (rawCapCon c x i) := by
  unfold rawCapCon
  cases alook c.rawCaps i <;> simp <;> infer_instance

/-- The per-item constraint of the `_build_model` item loop
(lines 179–208), in the source's `if`/`elif` order: target first, then
intermediate, then raw; other items get no constraint. -/
def itemCon (c : FConsts) (rate : ℚ) (x : String → ℚ) (i : String) : Prop :=
  if i = c.targetItem then Bi c x i = rate
  else if i ∈ c.intermediateItems then Bi c x i = 0
  else if i ∈ c.rawItems then Bi c x i ≤ 0 ∧ rawCapCon c x i
  else True

instance (c : FConsts) (rate : ℚ) (x : String → ℚ) (i : String) :
    Decidable (itemCon c rate x i) := by
  unfold itemCon
  infer_instance

/-- The machine-cap constraint of `_build_model` (lines 210–222). -/
def machCon (c : FConsts) (x : String → ℚ) (m : String) : Prop :=
  match alook c.machineCaps m with
  | some cap => usage c x m ≤ cap
  | none => True

instance (c : FConsts) (x : String → ℚ) (m : String) : Decidable (machCon c x m) := by
  unfold machCon
  cases alook c.machineCaps m <;> simp <;> infer_instance

/-- Satisfaction of all constraints the optimize-mode LP of `_build_model`
imposes: nonnegative activities, the item loop over `all_items`, and the
machine-cap loop over `machine_types`. -/
def codeFeasOpt (c : FConsts) (rate : ℚ) (x : String → ℚ) : Prop :=
  (∀ r ∈ c.recipeNames, 0 ≤ x r) ∧
  (∀ i ∈ c.allItems, itemCon c rate x i) ∧
  (∀ m ∈ c.machineTypes, machCon c x m)

/-- Satisfaction of all constraints of the max-rate-mode LP: the target
balance equals the maximized variable `T` with `T ≥ 0` (its `lowBound`). -/
def codeFeasMax (c : FConsts) (x : String → ℚ) (T : ℚ) : Prop :=
  0 ≤ T ∧ codeFeasOpt c T x

/-- The constraint system as the specification words it: target balance
pinned (even when the target item is also produced), zero balance for
items produced but neither raw nor target, sign and cap bounds for raw
items, and machine caps.  The item classes are disjoint with the target
classification taking priority, so the raw clause ranges over raw items
other than the target. -/
def specFeasOpt (c : FConsts) (rate : ℚ) (x : String → ℚ) : Prop :=
  (∀ r ∈ c.recipeNames, 0 ≤ x r) ∧
  Bi c x c.targetItem = rate ∧
  (∀ i ∈ c.producedItems, i ∉ c.rawItems → i ≠ c.targetItem → Bi c x i = 0) ∧
  (∀ i ∈ c.rawItems, i ≠ c.targetItem → Bi c x i ≤ 0 ∧
    (∀ cap, alook c.rawCaps i = some cap → -cap ≤ Bi c x i)) ∧
  (∀ m cap, alook c.machineCaps m = some cap → usage c x m ≤ cap)

/-- The specification's max-rate constraint system. -/
def specFeasMax (c : FConsts) (x : String → ℚ) (T : ℚ) : Prop :=
  0 ≤ T ∧ specFeasOpt c T x

/-- Factory response documents. -/
inductive FResult where
  | error (msg : String)
  | ok (perRecipe perMachine rawCons : List (String × ℚ))
  | infeasible (maxFeasible : ℚ) (hints : List String)
deriving DecidableEq

/-- `val if val > TOLERANCE else 0.0` (line 234). -/
def clampedX (xVal : String → ℚ) (r : String) : ℚ :=
  if tol < xVal r then xVal r else 0

/-- `_format_success_output` (lines 227–265).  `xVal` is the per-recipe
solution value exposed by the LP engine. -/
def formatSuccessOutput (c : FConsts) (xVal : String → ℚ) : FResult :=
  let perRecipe := c.recipeNames.map (fun r => (r, clampedX xVal r))
  let perMachine := c.machineTypes.filterMap
    (fun m =>
      let u := usage c (clampedX xVal) m
      if tol < u then some (m, u) else none)
  let rawCons := c.rawItems.filterMap
    (fun i =>
      let cons := -(Bi c (clampedX xVal) i)
      if tol < cons then some (i, cons) else none)
  .ok perRecipe perMachine rawCons

/-- The outcome of one LP solve, as exposed by the external CBC engine:
the status, per-variable values, the value of `max_target_rate`, and the
per-machine-cap constraint slacks. -/
structure LpOutcome where
  optimal : Bool
  xVal : String → ℚ
  tVal : ℚ
  machineSlack : String → Option ℚ

/-- The keys of `constraints["raw"]`: the `all_items` entries that fall
through to the raw branch of the item loop and have a declared cap. -/
def rawConstraintItems (c : FConsts) : List String :=
  c.allItems.filter
    (fun i => i ≠ c.targetItem ∧ i ∉ c.intermediateItems ∧ i ∈ c.rawItems ∧
      (alook c.rawCaps i).isSome)

/-- `_solve_and_format_max_rate` (lines 268–316), with the max-rate LP
outcome supplied by the engine oracle `o`. -/
def solveMaxRateFmt (c : FConsts) (o : LpOutcome) : FResult :=
  if o.optimal then
    let machineHints := c.machineTypes.filterMap
      (fun m =>
        match o.machineSlack m with
        | some s => if |s| < tol then some (m ++ " cap") else none
        | none => none)
    let rawHints := (rawConstraintItems c).filterMap
      (fun i =>
        match alook c.rawCaps i with
        | some cap => if Bi c o.xVal i ≤ -cap + tol then some (i ++ " supply") else none
        | none => none)
    let hints := machineHints ++ rawHints
    let final := if hints = [] then ["Unknown bottleneck"]
      else sortStrings hints.dedup
    .infeasible (max 0 o.tVal) final
  else
    .infeasible 0 ["Problem is fundamentally infeasible, even at zero target rate."]

/-- `solve_factory_steady_state` (lines 29–64): preprocessing, then the
optimize-mode solve, falling back to the max-rate path when the first LP
is not optimal.  The two LP solves are external; their outcomes are the
oracles `optOut` and `maxOut`. -/
def solveFactorySS (recipes : List (String × FRecipe))
    (machines : List (String × FMachine)) (modules : List (String × FModule))
    (rawCaps : List (String × ℚ)) (machineCaps : List (String × ℚ))
    (targetItem : String) (optOut maxOut : LpOutcome) : FResult :=
  match preprocess recipes machines modules rawCaps machineCaps targetItem with
  | .error m => .error m
  | .ok c =>
      if optOut.optimal then formatSuccessOutput c optOut.xVal
      else solveMaxRateFmt c maxOut

/-! ### Helper definitions for the claim statements -/

/-- The result is a success (`status: "ok"`) document. -/
def isOkResult (r : BeltsResult) : Prop := ∃ m f, r = BeltsResult.ok m f

/-- The result is a `status: "infeasible"` document. -/
def isInfeasibleResult (r : BeltsResult) : Prop :=
  ∃ c d t e, r = BeltsResult.infeasible c d t e

/-- Extract the payload of an `Except`, defaulting on error. -/
def exceptD {ε α : Type} [Inhabited α] : Except ε α → α
  | .ok a => a
  | .error _ => default

/-- Sum of the lower bounds of the original edges leaving `n` (the spec's
`−lo` contributions to the balance of `n_out`). -/
def loOutSum (edges : List BEdge) (n : String) : ℚ :=
  ((edges.filter (fun e => e.src = n)).map BEdge.loVal).sum

/-- Sum of the lower bounds of the original edges entering `n` (the spec's
`+lo` contributions to the balance of `n_in`). -/
def loInSum (edges : List BEdge) (n : String) : ℚ :=
  ((edges.filter (fun e => e.dst = n)).map BEdge.loVal).sum

/-- Net contribution of the edge pass to the balance at key `k`:
`−lo` at each `u_out`, `+lo` at each `v_in`. -/
def edgeDelta (edges : List BEdge) (k : String) : ℚ :=
  (edges.map (fun e =>
    (if e.src ++ "_out" = k then -e.loVal else 0) +
    (if e.dst ++ "_in" = k then e.loVal else 0))).sum

/-- The supply injected at `n_out`: the node's supply when positive. -/
def supplyPos (r : NodeRec) : ℚ :=
  if 0 < r.supply.getD 0 then r.supply.getD 0 else 0

/-- The demand drawn at `n_in`: the node's demand when positive. -/
def demandPos (r : NodeRec) : ℚ :=
  if 0 < r.demand.getD 0 then r.demand.getD 0 else 0

/-- The initial balance dict of phase 1. -/
def balInit (nodeData : NodeData) : List (String × ℚ) :=
  nodeData.flatMap (fun p =>
    [(p.1 ++ "_in", -demandPos p.2), (p.1 ++ "_out", supplyPos p.2)])

/-- Belts instance with two parallel edges between the same node pair. -/
def beltsCexEdges : List BEdge :=
  [⟨"a", "b", none, some 5⟩, ⟨"a", "b", none, some 3⟩]

/-- Node dict for the parallel-edge instance. -/
def beltsCexNodes : NodeData := [("a", {}), ("b", {})]

/-- The transformed instance the source builds for the parallel-edge
input. -/
def beltsCexSt : TransState := exceptD (buildTransformed beltsCexEdges beltsCexNodes)

/-- A request whose target item `"gadget"` appears in no recipe. -/
def factoryCexRecipes : List (String × FRecipe) :=
  [("r1", ⟨"m1", 60, [("ore", 1)], [("widget", 1)]⟩)]

/-- Machines for `factoryCexRecipes`. -/
def factoryCexMachines : List (String × FMachine) := [("m1", ⟨60⟩)]

/-- The constants `_preprocess_constants` computes for the unknown-target
request (checked against `preprocess` in the counterexample theorem). -/
def factoryCexC : FConsts :=
  { effOutputs := [("r1", [("widget", 1)])],
    fracInputs := [("r1", [("ore", 1)])],
    machineCosts := [("r1", 1/60)],
    recipeMachines := [("r1", "m1")],
    producedItems := ["widget"],
    allItems := ["ore", "widget"],
    recipeNames := ["r1"],
    machineTypes := [],
    rawItems := [],
    targetItem := "gadget",
    machineCaps := [],
    rawCaps := [],
    intermediateItems := ["widget"] }

/-- Constants for a request whose single machine `"m1"` has no declared
cap (`limits.max_machines` empty): `machine_types` is empty. -/
def factoryCex7C : FConsts :=
  { effOutputs := [("r1", [("widget", 1)])],
    fracInputs := [("r1", [])],
    machineCosts := [("r1", 1/60)],
    recipeMachines := [("r1", "m1")],
    producedItems := ["widget"],
    allItems := ["widget"],
    recipeNames := ["r1"],
    machineTypes := [],
    rawItems := [],
    targetItem := "widget",
    machineCaps := [],
    rawCaps := [],
    intermediateItems := ["widget"] }

/-- `s` qualifies as a machine-cap bottleneck hint: some capped machine
type has a defined constraint slack of absolute value below tolerance. -/
def machineHintQ (c : FConsts) (o : LpOutcome) (s : String) : Prop :=
  ∃ m ∈ c.machineTypes,
    (∃ sl, o.machineSlack m = some sl ∧ |sl| < tol) ∧ s = m ++ " cap"

/-- `s` qualifies as a raw-supply bottleneck hint: some raw-cap constraint
item has net balance within tolerance of `−cap`. -/
def rawHintQ (c : FConsts) (o : LpOutcome) (s : String) : Prop :=
  ∃ i ∈ rawConstraintItems c,
    (∃ cap, alook c.rawCaps i = some cap ∧ Bi c o.xVal i ≤ -cap + tol) ∧
    s = i ++ " supply"

/-- `s` qualifies as a bottleneck hint. -/
def hintQ (c : FConsts) (o : LpOutcome) (s : String) : Prop :=
  machineHintQ c o s ∨ rawHintQ c o s

/-- `modules.get(m, {}).get("speed", 0)`. -/
def speedModOf (modules : List (String × FModule)) (m : String) : ℚ :=
  ((alook modules m).getD {}).speed.getD 0

/-- `modules.get(m, {}).get("prod", 0)`. -/
def prodModOf (modules : List (String × FModule)) (m : String) : ℚ :=
  ((alook modules m).getD {}).prod.getD 0

/-- `_format_success_output` (lines 227–265) with the enumeration order
of the CPython set `constants["raw_items"]` made explicit: line 248
iterates that set to build `raw_consumption_per_min`, and a running
process enumerates a string set in an order that per-process hash
randomization varies.  `rawOrder` is the enumeration the process
happens to use; a valid enumeration is any permutation of the set's
elements. -/
def formatSuccessOutputIter (c : FConsts) (rawOrder : List String)
    (xVal : String → ℚ) : FResult :=
  let perRecipe := c.recipeNames.map (fun r => (r, clampedX xVal r))
  let perMachine := c.machineTypes.filterMap
    (fun m =>
      let u := usage c (clampedX xVal) m
      if tol < u then some (m, u) else none)
  let rawCons := rawOrder.filterMap
    (fun i =>
      let cons := -(Bi c (clampedX xVal) i)
      if tol < cons then some (i, cons) else none)
  .ok perRecipe perMachine rawCons

/-- `solve_factory_steady_state` (lines 29–64) with the set-enumeration
oracle threaded to the success formatter: one run of the process
corresponds to one choice of `rawOrder`. -/
def solveFactorySSIter (recipes : List (String × FRecipe))
    (machines : List (String × FMachine)) (modules : List (String × FModule))
    (rawCaps : List (String × ℚ)) (machineCaps : List (String × ℚ))
    (targetItem : String) (rawOrder : List String)
    (optOut maxOut : LpOutcome) : FResult :=
  match preprocess recipes machines modules rawCaps machineCaps targetItem with
  | .error m => .error m
  | .ok c =>
      if optOut.optimal then formatSuccessOutputIter c rawOrder optOut.xVal
      else solveMaxRateFmt c maxOut

/-- A request with one recipe consuming the two capped raw items `"ore"`
and `"coal"`, both above tolerance at the optimal solution. -/
def factoryC9Recipes : List (String × FRecipe) :=
  [("r1", ⟨"m1", 60, [("ore", 1), ("coal", 1)], [("widget", 1)]⟩)]

/-- Machines for `factoryC9Recipes`. -/
def factoryC9Machines : List (String × FMachine) := [("m1", ⟨60⟩)]

/-- Raw caps for `factoryC9Recipes`: the raw-item set has two elements. -/
def factoryC9RawCaps : List (String × ℚ) := [("ore", 100), ("coal", 100)]

/-- The constants `_preprocess_constants` computes for the two-raw-item
request (checked against `preprocess` in the C9 theorem). -/
def factoryC9C : FConsts :=
  { effOutputs := [("r1", [("widget", 1)])],
    fracInputs := [("r1", [("ore", 1), ("coal", 1)])],
    machineCosts := [("r1", 1/60)],
    recipeMachines := [("r1", "m1")],
    producedItems := ["widget"],
    allItems := ["coal", "ore", "widget"],
    recipeNames := ["r1"],
    machineTypes := [],
    rawItems := ["ore", "coal"],
    targetItem := "widget",
    machineCaps := [],
    rawCaps := [("ore", 100), ("coal", 100)],
    intermediateItems := ["widget"] }

/-- An optimal LP outcome for the two-raw-item request: recipe value 60. -/
def factoryC9Out : LpOutcome := ⟨true, fun _ => 60, 0, fun _ => none⟩

/-! ### Generic fold lemmas -/

theorem foldl_add_eq_sum {α : Type} (f : α → ℚ) (l : List α) (a0 : ℚ) :
    l.foldl (fun a x => a + f x) a0 = a0 + (l.map f).sum := by
  induction l generalizing a0 with
  | nil => simp
  | cons x xs ih => simp [ih, add_assoc]

theorem foldl_append_filter {α β : Type} (f : α → β) (P : β → Prop)
    [DecidablePred P] (l : List α) (acc : List β) :
    l.foldl (fun a e => if P (f e) then a ++ [f e] else a) acc =
      acc ++ (l.map f).filter (fun b => P b) := by
  induction l generalizing acc with
  | nil => simp
  | cons x xs ih =>
    by_cases h : P (f x)
    · simp [h, ih]
    · simp [h, ih]

theorem alook_foldl_dset_not_mem {β γ : Type} (g : String → γ → β)
    (l : List (String × γ)) (m0 : List (String × β)) (k : String)
    (hk : k ∉ l.map Prod.fst) :
    alook (l.foldl (fun m p => dset m p.1 (g p.1 p.2)) m0) k = alook m0 k := by
  induction l generalizing m0 with
  | nil => simp
  | cons p ps ih =>
    simp only [List.map_cons, List.mem_cons] at hk
    push_neg at hk
    simp only [List.foldl_cons]
    rw [ih _ hk.2, alook_dset_ne _ _ _ _ hk.1]

theorem alook_foldl_dset_mem {β γ : Type} (g : String → γ → β)
    (l : List (String × γ)) (m0 : List (String × β)) (k : String) (v : γ)
    (hn : (l.map Prod.fst).Nodup) (hmem : (k, v) ∈ l) :
    alook (l.foldl (fun m p => dset m p.1 (g p.1 p.2)) m0) k = some (g k v) := by
  induction l generalizing m0 with
  | nil => simp at hmem
  | cons p ps ih =>
    simp only [List.map_cons, List.nodup_cons] at hn
    rcases List.mem_cons.mp hmem with h | h
    · subst h
      simp only [List.foldl_cons]
      rw [alook_foldl_dset_not_mem _ _ _ _ hn.1, alook_dset_self]
    · simp only [List.foldl_cons]
      exact ih _ hn.2 h

/-! ### C1: the Belts feasibility criterion -/

/-- **C1.**  For every Belts request that reaches the solve step (the
transformed instance was built without a `hi < lo` error, and
`nx.maximum_flow` returned a result rather than raising
`NetworkXUnbounded`), the solver reports success if and only if the
computed max-flow value differs from the total required flow
`st.total` (= `R`) by less than `1e-9`; otherwise the status is
`"infeasible"`. -/
theorem c1_feasibility_criterion
    (graphData : List BEdge) (nodeData : NodeData) (st : TransState)
    (fv : ℚ) (fd : FlowFn) (reach : List String)
    (hb : buildTransformed graphData nodeData = .ok st) :
    (isOkResult (solveBelt graphData nodeData (some (fv, fd)) reach) ↔
      |fv - st.total| < tol) ∧
    (¬ |fv - st.total| < tol →
      isInfeasibleResult (solveBelt graphData nodeData (some (fv, fd)) reach)) := by
  simp only [solveBelt, hb]
  by_cases h : |fv - st.total| < tol
  · rw [if_pos h]
    refine ⟨⟨fun _ => h, fun _ => ?_⟩, fun hc => absurd h hc⟩
    exact ⟨_, _, rfl⟩
  · rw [if_neg h]
    constructor
    · constructor
      · intro ⟨m, f, he⟩
        exact absurd he (by simp [formatInfeasibleB])
      · intro hc
        exact absurd hc h
    · intro _
      exact ⟨_, _, _, _, rfl⟩

/-- Witness for C1 on a concrete two-node instance with max-flow value
exactly `R = 1`. -/
theorem c1_feasibility_criterion_witness :
    isOkResult (solveBelt [⟨"a", "b", none, some 1⟩]
      [("a", { supply := some 1 }), ("b", { demand := some 1 })]
      (some (1, fun _ _ => 0)) []) := by
  have hb : buildTransformed [⟨"a", "b", none, some 1⟩]
      [("a", { supply := some 1 }), ("b", { demand := some 1 })] =
      .ok { g := [(("a_in", "a_out"), .inf), (("b_in", "b_out"), .inf),
                  (("a_out", "b_in"), .fin 1), (("_s_star_", "a_out"), .fin 1),
                  (("b_in", "_t_star_"), .fin 1)],
            bal := [("a_in", 0), ("a_out", 1), ("b_in", -1), ("b_out", 0)],
            sources := ["a"], origEdges := [⟨"a", "b", 0, .fin 1⟩], total := 1 } := by
    simp +decide [buildTransformed, procNodes, procNode, procEdges, superPhase,
      gset, dset, alook, NodeRec.capVal, BEdge.loVal, BEdge.hiVal, QCap.ltQ,
      QCap.sub, sStar, tStar]
  have h := (c1_feasibility_criterion _ _ _ 1 (fun _ _ => 0) [] hb).1
  exact h.mpr (by norm_num [tol])

/-! ### C5: the Belts success formatting -/

/-- **C5.**  For every Belts request the solver finds feasible, the
success response assigns to each original edge `(u → v, lo, hi)` the flow
`f'(u_out, v_in) + lo`, keeps exactly the edges whose flow exceeds the
tolerance `1e-9`, and reports `max_flow_per_min` equal to the sum of the
source supplies. -/
theorem c5_success_response
    (graphData : List BEdge) (nodeData : NodeData) (st : TransState)
    (fv : ℚ) (fd : FlowFn) (reach : List String)
    (hb : buildTransformed graphData nodeData = .ok st)
    (hfeas : |fv - st.total| < tol) :
    solveBelt graphData nodeData (some (fv, fd)) reach =
      .ok ((st.sources.map (supplyOf nodeData)).sum)
        ((st.origEdges.map
            (fun e => (e.u, e.v, fd (e.u ++ "_out") (e.v ++ "_in") + e.lo))).filter
          (fun t => tol < t.2.2)) := by
  simp only [solveBelt, hb, if_pos hfeas, formatSuccessB]
  congr 1
  · rw [foldl_add_eq_sum (supplyOf nodeData) st.sources 0, zero_add]
  · simpa using foldl_append_filter
      (fun e : OrigEdge => (e.u, e.v, fd (e.u ++ "_out") (e.v ++ "_in") + e.lo))
      (fun t : String × String × ℚ => tol < t.2.2) st.origEdges []

/-- Witness for C5 on the concrete two-node instance: the single edge
carries flow `0 + 0 + lo` … with flow-dict value 1 it is kept. -/
theorem c5_success_response_witness :
    solveBelt [⟨"a", "b", none, some 1⟩]
      [("a", { supply := some 1 }), ("b", { demand := some 1 })]
      (some (1, fun _ _ => 1)) [] = .ok 1 [("a", "b", 1)] := by
  have hb : buildTransformed [⟨"a", "b", none, some 1⟩]
      [("a", { supply := some 1 }), ("b", { demand := some 1 })] =
      .ok { g := [(("a_in", "a_out"), .inf), (("b_in", "b_out"), .inf),
                  (("a_out", "b_in"), .fin 1), (("_s_star_", "a_out"), .fin 1),
                  (("b_in", "_t_star_"), .fin 1)],
            bal := [("a_in", 0), ("a_out", 1), ("b_in", -1), ("b_out", 0)],
            sources := ["a"], origEdges := [⟨"a", "b", 0, .fin 1⟩], total := 1 } := by
    simp +decide [buildTransformed, procNodes, procNode, procEdges, superPhase,
      gset, dset, alook, NodeRec.capVal, BEdge.loVal, BEdge.hiVal, QCap.ltQ,
      QCap.sub, sStar, tStar]
  have h := c5_success_response _ _ _ 1 (fun _ _ => 1) [] hb (by norm_num [tol])
  rw [h]
  simp +decide [supplyOf, alook, tol]
  norm_num

/-! ### C8: original-name recovery in the infeasibility certificate -/

/-- **C8** (the claim is the *specified* behaviour; the source deviates).
On an infeasible instance whose reachable set contains the split node
`"s_1_in"` of the original node `"s_1"`, `_format_infeasible` adds
`"s"` — the result of `"s_1_in".split("_")[0]` — to `cut_reachable`
instead of the original name `"s_1"`. -/
theorem c8_name_recovery_truncates :
    formatInfeasibleB (fun _ _ => 0) 0 1 [] [("s_1", {})] [sStar, "s_1_in"] =
      .infeasible ["s"] 1 [] [] ∧ "s_1" ∉ (["s"] : List String) := by
  constructor
  · simp +decide [formatInfeasibleB, cutReachableOf, insertNew, pyEndsWith,
      pySplitHead, splitChars, sortStrings, List.insertionSort, sStar, tStar]
  · decide

/-! ### C10: the `__main__` node-record assembly -/

/-- **C10.**  In the Belts entry point, the per-node record map is built
by inserting sources first, then every entry of the `nodes` mapping, then
the sink.  A name appearing in `nodes` ends up with the `nodes`-derived
record — its `supply` is gone, so it is no longer treated as a source —
and the sink name ends up with the demand record (total supply), so a
capacity declared on the sink node is discarded. -/
theorem c10_node_data_overwrites
    (inp : BeltsInput) (nd : NodeData) (ts : ℚ)
    (hnodup : (inp.nodes.map Prod.fst).Nodup)
    (sinkName : String) (hsink : inp.sink = some sinkName)
    (hb : buildNodeData inp = .ok (nd, ts)) :
    (∀ name capOpt, (name, capOpt) ∈ inp.nodes → name ≠ sinkName →
      alook nd name = some (nodeRecOf capOpt)) ∧
    alook nd sinkName = some { demand := some ts } ∧
    ts = (inp.sources.map (fun p => p.2.getD 0)).sum := by
  have hts : (inp.sources.foldl
      (fun (p : NodeData × ℚ) sv =>
        (dset p.1 sv.1 { supply := some (sv.2.getD 0) }, p.2 + sv.2.getD 0))
      ([], 0)).2 = (inp.sources.map (fun p => p.2.getD 0)).sum := by
    have hgen : ∀ (l : List (String × Option ℚ)) (m0 : NodeData) (a0 : ℚ),
        (l.foldl (fun (p : NodeData × ℚ) sv =>
          (dset p.1 sv.1 { supply := some (sv.2.getD 0) }, p.2 + sv.2.getD 0))
          (m0, a0)).2 = a0 + (l.map (fun p => p.2.getD 0)).sum := by
      intro l
      induction l with
      | nil => intro m0 a0; simp
      | cons p ps ih => intro m0 a0; simp [ih, add_assoc]
    simpa using hgen inp.sources [] 0
  simp only [buildNodeData, hsink] at hb
  by_cases hempty : sinkName = ""
  · rw [if_pos hempty] at hb
    exact absurd hb (by simp)
  · rw [if_neg hempty] at hb
    simp only [Except.ok.injEq, Prod.mk.injEq] at hb
    obtain ⟨hnd, hts'⟩ := hb
    refine ⟨?_, ?_, ?_⟩
    · intro name capOpt hmem hne
      rw [← hnd]
      rw [alook_dset_ne _ _ _ _ hne]
      exact alook_foldl_dset_mem (fun _ c => nodeRecOf c) inp.nodes _
        name capOpt hnodup hmem
    · rw [← hnd, alook_dset_self]
      rw [← hts', hts]
    · rw [← hts', hts]

/-- Witness for C10: `"a"` is both a source (supply 7) and a capped node
(capacity 3); `"b"` is the sink and also a capped node.  The final
records keep the capacity for `"a"` (supply discarded) and the demand for
`"b"` (capacity discarded). -/
theorem c10_node_data_overwrites_witness :
    alook (exceptD (buildNodeData
      ⟨[("a", some 7)], [("a", some 3), ("b", some 9)], some "b", []⟩)).1 "a" =
      some { cap := some 3 } ∧
    alook (exceptD (buildNodeData
      ⟨[("a", some 7)], [("a", some 3), ("b", some 9)], some "b", []⟩)).1 "b" =
      some { demand := some 7 } := by
  have hb : buildNodeData
      ⟨[("a", some 7)], [("a", some 3), ("b", some 9)], some "b", []⟩ =
      .ok ([("a", { cap := some 3 }), ("b", { demand := some 7 })], 7) := by
    simp +decide [buildNodeData, dset, alook]
  have h := c10_node_data_overwrites
    ⟨[("a", some 7)], [("a", some 3), ("b", some 9)], some "b", []⟩
    [("a", { cap := some 3 }), ("b", { demand := some 7 })] 7
    (by decide) "b" rfl hb
  refine ⟨?_, ?_⟩
  · have := h.1 "a" (some 3) (by decide) (by decide)
    rw [hb]
    simpa [exceptD] using this
  · rw [hb]
    simpa [exceptD] using h.2.1

/-! ### C4: exact preprocessing of the Factory constants -/

theorem alook_append_left {κ β : Type} [DecidableEq κ] (m m' : List (κ × β)) (k : κ)
    (h : (alook m k).isSome) : alook (m ++ m') k = alook m k := by
  rw [alook_append]
  cases hc : alook m k with
  | none => rw [hc] at h; simp at h
  | some v => simp

theorem prepLoop_mono (machines : List (String × FMachine))
    (modules : List (String × FModule)) :
    ∀ (rs : List (String × FRecipe)) effO fracI costs rmach items produced out,
    prepLoop machines modules rs effO fracI costs rmach items produced = .ok out →
    (∀ r, (alook effO r).isSome → alook out.1 r = alook effO r) ∧
    (∀ r, (alook fracI r).isSome → alook out.2.1 r = alook fracI r) ∧
    (∀ r, (alook costs r).isSome → alook out.2.2.1 r = alook costs r) ∧
    (∀ r, (alook rmach r).isSome → alook out.2.2.2.1 r = alook rmach r) := by
  intro rs
  induction rs with
  | nil =>
    intro effO fracI costs rmach items produced out hok
    simp only [prepLoop, Except.ok.injEq] at hok
    subst hok
    exact ⟨fun _ _ => rfl, fun _ _ => rfl, fun _ _ => rfl, fun _ _ => rfl⟩
  | cons pr rs ih =>
    intro effO fracI costs rmach items produced out hok
    obtain ⟨rName, rd⟩ := pr
    simp only [prepLoop] at hok
    cases hm : alook machines rd.machine with
    | none => rw [hm] at hok; exact absurd hok (by simp)
    | some ms =>
      simp only [hm] at hok
      by_cases ht : rd.time_s ≤ 0
      · rw [if_pos ht] at hok; exact absurd hok (by simp)
      · rw [if_neg ht] at hok
        by_cases he : ms.crafts_per_min *
            (1 + ((alook modules rd.machine).getD {}).speed.getD 0) * 60 / rd.time_s ≤ 0
        · rw [if_pos he] at hok; exact absurd hok (by simp)
        · rw [if_neg he] at hok
          obtain ⟨h1, h2, h3, h4⟩ := ih _ _ _ _ _ _ _ hok
          refine ⟨fun r hr => ?_, fun r hr => ?_, fun r hr => ?_, fun r hr => ?_⟩
          · rw [h1 r (by rw [alook_append_left _ _ _ hr]; exact hr),
              alook_append_left _ _ _ hr]
          · rw [h2 r (by rw [alook_append_left _ _ _ hr]; exact hr),
              alook_append_left _ _ _ hr]
          · rw [h3 r (by rw [alook_append_left _ _ _ hr]; exact hr),
              alook_append_left _ _ _ hr]
          · rw [h4 r (by rw [alook_append_left _ _ _ hr]; exact hr),
              alook_append_left _ _ _ hr]

theorem prepLoop_lookup (machines : List (String × FMachine))
    (modules : List (String × FModule)) :
    ∀ (rs : List (String × FRecipe)) effO fracI costs rmach items produced out,
    prepLoop machines modules rs effO fracI costs rmach items produced = .ok out →
    (rs.map Prod.fst).Nodup →
    ∀ r rd, (r, rd) ∈ rs →
    alook effO r = none → alook fracI r = none →
    alook costs r = none → alook rmach r = none →
    ∃ ms, alook machines rd.machine = some ms ∧
      0 < ms.crafts_per_min * (1 + speedModOf modules rd.machine) * 60 / rd.time_s ∧
      alook out.1 r =
        some (rd.out.map (fun p => (p.1, p.2 * (1 + prodModOf modules rd.machine)))) ∧
      alook out.2.1 r = some rd.inp ∧
      alook out.2.2.1 r =
        some (1 / (ms.crafts_per_min * (1 + speedModOf modules rd.machine) * 60 / rd.time_s)) ∧
      alook out.2.2.2.1 r = some rd.machine := by
  intro rs
  induction rs with
  | nil =>
    intro effO fracI costs rmach items produced out _ _ r rd hmem
    simp at hmem
  | cons pr rs ih =>
    intro effO fracI costs rmach items produced out hok hnd r rd hmem he0 hf0 hc0 hr0
    obtain ⟨rName, rd0⟩ := pr
    simp only [prepLoop] at hok
    cases hm : alook machines rd0.machine with
    | none => rw [hm] at hok; exact absurd hok (by simp)
    | some ms =>
      simp only [hm] at hok
      by_cases ht : rd0.time_s ≤ 0
      · rw [if_pos ht] at hok; exact absurd hok (by simp)
      · rw [if_neg ht] at hok
        by_cases hetest : ms.crafts_per_min *
            (1 + ((alook modules rd0.machine).getD {}).speed.getD 0) * 60 / rd0.time_s ≤ 0
        · rw [if_pos hetest] at hok; exact absurd hok (by simp)
        · rw [if_neg hetest] at hok
          simp only [List.map_cons, List.nodup_cons] at hnd
          rcases List.mem_cons.mp hmem with hhd | htl
          · have hr : r = rName := by
              have := congrArg Prod.fst hhd
              simpa using this
            have hrd : rd = rd0 := by
              have := congrArg Prod.snd hhd
              simpa using this
            subst hr
            subst hrd
            obtain ⟨h1, h2, h3, h4⟩ := prepLoop_mono machines modules _ _ _ _ _ _ _ _ hok
            refine ⟨ms, hm, ?_, ?_, ?_, ?_, ?_⟩
            · rw [speedModOf]
              exact lt_of_not_le hetest
            · rw [h1 r (by rw [alook_append, he0]; simp [alook]),
                alook_append, he0]
              simp [alook, prodModOf]
            · rw [h2 r (by rw [alook_append, hf0]; simp [alook]),
                alook_append, hf0]
              simp [alook]
            · rw [h3 r (by rw [alook_append, hc0]; simp [alook]),
                alook_append, hc0]
              simp [alook, speedModOf]
            · rw [h4 r (by rw [alook_append, hr0]; simp [alook]),
                alook_append, hr0]
              simp [alook]
          · have hrne : r ≠ rName := by
              intro hrr
              subst hrr
              exact hnd.1 (List.mem_map.mpr ⟨(r, rd), htl, rfl⟩)
            refine ih _ _ _ _ _ _ _ hok hnd.2 r rd htl ?_ ?_ ?_ ?_ <;>
              rw [alook_append] <;>
              [rw [he0]; rw [hf0]; rw [hc0]; rw [hr0]] <;>
              simp [alook, Ne.symm hrne]

/-- **C4.**  For every Factory request that preprocesses successfully,
the constants are computed exactly (the embedding works in `ℚ`,
mirroring the `Fraction(str(...))` conversions of the source): the
machine-cost coefficient of recipe `r` is `1 / e_r` with
`e_r = base_speed * (1 + speed_mod) * 60 / time_s`, each effective
output amount is `out_amount * (1 + prod_mod)`, and the stored input
amounts are the raw input amounts, not multiplied by productivity. -/
theorem c4_exact_preprocessing
    (recipes : List (String × FRecipe)) (machines : List (String × FMachine))
    (modules : List (String × FModule)) (rawCaps machineCaps : List (String × ℚ))
    (targetItem : String) (c : FConsts)
    (hok : preprocess recipes machines modules rawCaps machineCaps targetItem = .ok c)
    (hnodup : (recipes.map Prod.fst).Nodup)
    (r : String) (rd : FRecipe) (hmem : (r, rd) ∈ recipes) :
    ∃ ms, alook machines rd.machine = some ms ∧
      0 < ms.crafts_per_min * (1 + speedModOf modules rd.machine) * 60 / rd.time_s ∧
      alook c.machineCosts r =
        some (1 / (ms.crafts_per_min * (1 + speedModOf modules rd.machine) * 60 / rd.time_s)) ∧
      alook c.effOutputs r =
        some (rd.out.map (fun p => (p.1, p.2 * (1 + prodModOf modules rd.machine)))) ∧
      alook c.fracInputs r = some rd.inp := by
  unfold preprocess at hok
  cases hp : prepLoop machines modules recipes [] [] [] [] [] [] with
  | error m => rw [hp] at hok; exact absurd hok (by simp)
  | ok out =>
    rw [hp] at hok
    obtain ⟨effO, fracI, costs, rmach, items, produced⟩ := out
    simp only [Except.ok.injEq] at hok
    obtain ⟨ms, hms, hpos, h1, h2, h3, _⟩ :=
      prepLoop_lookup machines modules recipes [] [] [] [] [] [] _ hp hnodup
        r rd hmem rfl rfl rfl rfl
    refine ⟨ms, hms, hpos, ?_, ?_, ?_⟩
    · rw [← hok]
      exact h3
    · rw [← hok]
      exact h1
    · rw [← hok]
      exact h2

/-- Witness for C4: one smelter recipe with a speed module,
`e_r = 60 * (1 + 1/2) * 60 / 3 = 1800`, cost `1/1800`, productivity
applied to the output only. -/
theorem c4_exact_preprocessing_witness :
    ∃ ms, alook [("m1", (⟨60⟩ : FMachine))] "m1" = some ms ∧
      0 < ms.crafts_per_min *
          (1 + speedModOf [("m1", { speed := some (1/2), prod := some (1/5) })] "m1") * 60 / 3 ∧
      alook (exceptD (preprocess
        [("r1", ⟨"m1", 3, [("iron_ore", 1)], [("iron_plate", 1)]⟩)]
        [("m1", ⟨60⟩)] [("m1", { speed := some (1/2), prod := some (1/5) })]
        [] [] "iron_plate")).machineCosts "r1" =
        some (1 / (ms.crafts_per_min *
          (1 + speedModOf [("m1", { speed := some (1/2), prod := some (1/5) })] "m1") * 60 / 3)) ∧
      alook (exceptD (preprocess
        [("r1", ⟨"m1", 3, [("iron_ore", 1)], [("iron_plate", 1)]⟩)]
        [("m1", ⟨60⟩)] [("m1", { speed := some (1/2), prod := some (1/5) })]
        [] [] "iron_plate")).effOutputs "r1" =
        some ([("iron_plate", (1 : ℚ))].map (fun p =>
          (p.1, p.2 * (1 + prodModOf [("m1", { speed := some (1/2), prod := some (1/5) })] "m1")))) ∧
      alook (exceptD (preprocess
        [("r1", ⟨"m1", 3, [("iron_ore", 1)], [("iron_plate", 1)]⟩)]
        [("m1", ⟨60⟩)] [("m1", { speed := some (1/2), prod := some (1/5) })]
        [] [] "iron_plate")).fracInputs "r1" = some [("iron_ore", 1)] := by
  have hok : preprocess
      [("r1", ⟨"m1", 3, [("iron_ore", 1)], [("iron_plate", 1)]⟩)]
      [("m1", ⟨60⟩)] [("m1", { speed := some (1/2), prod := some (1/5) })]
      [] [] "iron_plate" =
      .ok (exceptD (preprocess
        [("r1", ⟨"m1", 3, [("iron_ore", 1)], [("iron_plate", 1)]⟩)]
        [("m1", ⟨60⟩)] [("m1", { speed := some (1/2), prod := some (1/5) })]
        [] [] "iron_plate")) := by
    norm_num [preprocess, prepLoop, alook, exceptD]
  have h := c4_exact_preprocessing _ _ _ _ _ _ _ hok (by decide)
    "r1" ⟨"m1", 3, [("iron_ore", 1)], [("iron_plate", 1)]⟩ (by decide)
  obtain ⟨ms, hms, hpos, hc, he, hf⟩ := h
  exact ⟨ms, hms, hpos, hc, by simpa using he, hf⟩

/-! ### C7: `per_machine_counts` only covers capped machine types -/

theorem preprocess_machineTypes
    (recipes : List (String × FRecipe)) (machines : List (String × FMachine))
    (modules : List (String × FModule)) (rawCaps machineCaps : List (String × ℚ))
    (targetItem : String) (c : FConsts)
    (hok : preprocess recipes machines modules rawCaps machineCaps targetItem = .ok c) :
    c.machineTypes = sortStrings (machineCaps.map Prod.fst) := by
  unfold preprocess at hok
  cases hp : prepLoop machines modules recipes [] [] [] [] [] [] with
  | error m => rw [hp] at hok; exact absurd hok (by simp)
  | ok out =>
    rw [hp] at hok
    obtain ⟨effO, fracI, costs, rmach, items, produced⟩ := out
    simp only [Except.ok.injEq] at hok
    rw [← hok]

/-- **C7** (amended).  For every successful Factory solve, the response's
`per_machine_counts` contains exactly the machine types *with a declared
cap* whose usage `Σ_{r ∈ m} c_r · x_r` (over the clamped activities)
exceeds the tolerance, mapped to that usage; machine types without a
declared cap never appear, whatever their usage. -/
theorem c7_per_machine_counts
    (recipes : List (String × FRecipe)) (machines : List (String × FMachine))
    (modules : List (String × FModule)) (rawCaps machineCaps : List (String × ℚ))
    (targetItem : String) (c : FConsts)
    (hok : preprocess recipes machines modules rawCaps machineCaps targetItem = .ok c)
    (xVal : String → ℚ) :
    ∃ pm, (∃ pr rc, formatSuccessOutput c xVal = .ok pr pm rc) ∧
      ∀ m u, ((m, u) ∈ pm ↔
        m ∈ machineCaps.map Prod.fst ∧ u = usage c (clampedX xVal) m ∧ tol < u) := by
  refine ⟨_, ⟨_, _, rfl⟩, ?_⟩
  intro m u
  rw [List.mem_filterMap]
  constructor
  · intro ⟨a, ha, hf⟩
    by_cases hu : tol < usage c (clampedX xVal) a
    · rw [if_pos hu] at hf
      simp only [Option.some.injEq, Prod.mk.injEq] at hf
      obtain ⟨h1, h2⟩ := hf
      subst h1
      refine ⟨?_, h2.symm, h2 ▸ hu⟩
      rw [preprocess_machineTypes _ _ _ _ _ _ _ hok] at ha
      exact mem_sortStrings.mp ha
    · rw [if_neg hu] at hf
      exact absurd hf (by simp)
  · intro ⟨hmem, hu, htol⟩
    refine ⟨m, ?_, ?_⟩
    · rw [preprocess_machineTypes _ _ _ _ _ _ _ hok]
      exact mem_sortStrings.mpr hmem
    · rw [if_pos (hu ▸ htol), hu]

/-- Counterexample to C7 as stated: the single machine `"m1"` has no
declared cap, its usage is `1` (far above tolerance), yet
`per_machine_counts` is empty, because `_format_success_output` iterates
`machine_types = sorted(machine_caps.keys())`. -/
theorem c7_uncapped_machine_omitted :
    preprocess [("r1", ⟨"m1", 60, [], [("widget", 1)]⟩)] [("m1", ⟨60⟩)]
      [] [] [] "widget" = .ok factoryCex7C ∧
    formatSuccessOutput factoryCex7C (fun _ => 60) = .ok [("r1", 60)] [] [] ∧
    tol < usage factoryCex7C (clampedX (fun _ => 60)) "m1" := by
  refine ⟨?_, ?_, ?_⟩
  · norm_num [preprocess, prepLoop, alook, factoryCex7C, sortStrings,
      List.insertionSort]
  · norm_num [formatSuccessOutput, factoryCex7C, clampedX, usage, costOf,
      machOf, Bi, effOut, fracIn, alook, tol]
  · norm_num [factoryCex7C, usage, costOf, machOf, alook, clampedX, tol]

/-- Witness for the amended C7 on a concrete capped instance: machine
`"m1"` is capped and used, so it appears with its usage `1`. -/
theorem c7_per_machine_counts_witness :
    ∃ pm, (∃ pr rc, formatSuccessOutput
        (exceptD (preprocess [("r1", ⟨"m1", 60, [], [("widget", 1)]⟩)]
          [("m1", ⟨60⟩)] [] [] [("m1", 5)] "widget")) (fun _ => 60) = .ok pr pm rc) ∧
      ∀ m u, ((m, u) ∈ pm ↔
        m ∈ ([("m1", (5 : ℚ))].map Prod.fst) ∧
        u = usage (exceptD (preprocess [("r1", ⟨"m1", 60, [], [("widget", 1)]⟩)]
          [("m1", ⟨60⟩)] [] [] [("m1", 5)] "widget")) (clampedX (fun _ => 60)) m ∧
        tol < u) := by
  have hok : preprocess [("r1", ⟨"m1", 60, [], [("widget", 1)]⟩)]
      [("m1", ⟨60⟩)] [] [] [("m1", 5)] "widget" =
      .ok (exceptD (preprocess [("r1", ⟨"m1", 60, [], [("widget", 1)]⟩)]
        [("m1", ⟨60⟩)] [] [] [("m1", 5)] "widget")) := by
    norm_num [preprocess, prepLoop, alook, exceptD]
  exact c7_per_machine_counts _ _ _ _ _ _ _ hok (fun _ => 60)

/-! ### C6: the Factory infeasibility (max-rate) path -/

theorem hintFinal_spec (L : List String) (Q : String → Prop)
    (hmem : ∀ s, s ∈ L ↔ Q s) :
    ((∃ s, Q s) →
      (∀ s, s ∈ (if L = [] then ["Unknown bottleneck"] else sortStrings L.dedup) ↔ Q s) ∧
      (if L = [] then ["Unknown bottleneck"] else sortStrings L.dedup).Sorted strLeP ∧
      (if L = [] then ["Unknown bottleneck"] else sortStrings L.dedup).Nodup) ∧
    ((¬ ∃ s, Q s) →
      (if L = [] then ["Unknown bottleneck"] else sortStrings L.dedup) =
        ["Unknown bottleneck"]) := by
  by_cases hL : L = []
  · rw [if_pos hL]
    constructor
    · intro ⟨s, hQ⟩
      exact absurd (hL ▸ (hmem s).mpr hQ) (by simp)
    · intro _
      rfl
  · rw [if_neg hL]
    constructor
    · intro _
      refine ⟨fun s => ?_, sorted_sortStrings _, nodup_sortStrings (List.nodup_dedup L)⟩
      rw [mem_sortStrings, List.mem_dedup, hmem]
    · intro hn
      exfalso
      obtain ⟨s, hs⟩ := List.exists_mem_of_ne_nil L hL
      exact hn ⟨s, (hmem s).mp hs⟩

/-- **C6.**  On the Factory infeasibility path: if the max-rate LP is not
optimal, the solver reports `max_feasible_target_per_min = 0` with the
generic hint; otherwise (for a solver value `T* ≥ 0`, as guaranteed by
the variable's `lowBound`) it reports `max_feasible_target_per_min = T*`
and a `bottleneck_hint` list that contains exactly the strings
`"<machine> cap"` for machine-cap constraints with defined slack of
absolute value below tolerance and `"<item> supply"` for raw-cap items
whose recomputed net balance is `≤ −cap + tol`, deduplicated and sorted,
or `["Unknown bottleneck"]` when no constraint qualifies. -/
theorem c6_max_rate_path (c : FConsts) (o : LpOutcome) :
    (o.optimal = false →
      solveMaxRateFmt c o = .infeasible 0
        ["Problem is fundamentally infeasible, even at zero target rate."]) ∧
    (o.optimal = true → 0 ≤ o.tVal →
      ∃ hs, solveMaxRateFmt c o = .infeasible o.tVal hs ∧
        ((∃ s, hintQ c o s) →
          (∀ s, s ∈ hs ↔ hintQ c o s) ∧ hs.Sorted strLeP ∧ hs.Nodup) ∧
        ((¬ ∃ s, hintQ c o s) → hs = ["Unknown bottleneck"])) := by
  constructor
  · intro hfalse
    simp [solveMaxRateFmt, hfalse]
  · intro htrue h0
    have hmem : ∀ s, s ∈ (c.machineTypes.filterMap
        (fun m => match o.machineSlack m with
          | some sl => if |sl| < tol then some (m ++ " cap") else none
          | none => none) ++
        (rawConstraintItems c).filterMap
        (fun i => match alook c.rawCaps i with
          | some cap => if Bi c o.xVal i ≤ -cap + tol then some (i ++ " supply") else none
          | none => none)) ↔ hintQ c o s := by
      intro s
      rw [List.mem_append, List.mem_filterMap, List.mem_filterMap]
      unfold hintQ machineHintQ rawHintQ
      constructor
      · rintro (⟨m, hmm, hf⟩ | ⟨i, hii, hf⟩)
        · left
          cases hsl : o.machineSlack m with
          | none => simp only [hsl] at hf; exact absurd hf (by simp)
          | some sl =>
            simp only [hsl] at hf
            by_cases habs : |sl| < tol
            · rw [if_pos habs] at hf
              simp only [Option.some.injEq] at hf
              exact ⟨m, hmm, ⟨sl, hsl, habs⟩, hf.symm⟩
            · rw [if_neg habs] at hf
              exact absurd hf (by simp)
        · right
          cases hcap : alook c.rawCaps i with
          | none => simp only [hcap] at hf; exact absurd hf (by simp)
          | some cap =>
            simp only [hcap] at hf
            by_cases hb : Bi c o.xVal i ≤ -cap + tol
            · rw [if_pos hb] at hf
              simp only [Option.some.injEq] at hf
              exact ⟨i, hii, ⟨cap, hcap, hb⟩, hf.symm⟩
            · rw [if_neg hb] at hf
              exact absurd hf (by simp)
      · rintro (⟨m, hmm, ⟨sl, hsl, habs⟩, hs⟩ | ⟨i, hii, ⟨cap, hcap, hb⟩, hs⟩)
        · exact Or.inl ⟨m, hmm, by simp only [hsl]; rw [if_pos habs, hs]⟩
        · exact Or.inr ⟨i, hii, by simp only [hcap]; rw [if_pos hb, hs]⟩
    refine ⟨_, ?_, (hintFinal_spec _ _ hmem).1, (hintFinal_spec _ _ hmem).2⟩
    unfold solveMaxRateFmt
    rw [htrue]
    simp only [eq_self_iff_true, if_true]
    rw [max_eq_right h0]

/-- Witness for C6: one capped machine type with zero slack; the hint
list is exactly `["m1 cap"]`, sorted and duplicate-free. -/
theorem c6_max_rate_path_witness :
    ∃ hs, solveMaxRateFmt
      ⟨[], [], [], [], [], [], [], ["m1"], [], "t", [("m1", 5)], [], []⟩
      ⟨true, fun _ => 0, 2, fun m => if m = "m1" then some 0 else none⟩ =
      .infeasible (2 : ℚ) hs ∧
      (∀ s, s ∈ hs ↔ hintQ
        ⟨[], [], [], [], [], [], [], ["m1"], [], "t", [("m1", 5)], [], []⟩
        ⟨true, fun _ => 0, 2, fun m => if m = "m1" then some 0 else none⟩ s) ∧
      hs.Sorted strLeP ∧ hs.Nodup := by
  obtain ⟨hs, heq, himp, _⟩ :=
    (c6_max_rate_path
      ⟨[], [], [], [], [], [], [], ["m1"], [], "t", [("m1", 5)], [], []⟩
      ⟨true, fun _ => 0, 2, fun m => if m = "m1" then some 0 else none⟩).2
      rfl (by norm_num)
  have hex : ∃ s, hintQ
      ⟨[], [], [], [], [], [], [], ["m1"], [], "t", [("m1", 5)], [], []⟩
      ⟨true, fun _ => 0, 2, fun m => if m = "m1" then some 0 else none⟩ s := by
    refine ⟨"m1" ++ " cap", Or.inl ⟨"m1", by decide, ⟨0, ?_, by norm_num [tol]⟩, rfl⟩⟩
    simp
  obtain ⟨hchar, hsort, hnd⟩ := himp hex
  exact ⟨hs, heq, hchar, hsort, hnd⟩

/-! ### C2: the LP constraint system -/

theorem alook_mem {κ β : Type} [DecidableEq κ] {l : List (κ × β)} {k : κ} {v : β}
    (h : alook l k = some v) : (k, v) ∈ l := by
  induction l with
  | nil => simp [alook] at h
  | cons p ps ih =>
    by_cases hpk : p.1 = k
    · simp only [alook, if_pos hpk, Option.some.injEq] at h
      have hp : p = (k, v) := by
        rw [Prod.ext_iff]
        exact ⟨hpk, h⟩
      rw [← hp]
      exact List.mem_cons_self _ _
    · simp only [alook, if_neg hpk] at h
      exact List.mem_cons_of_mem _ (ih h)

theorem mem_keys_of_alook {κ β : Type} [DecidableEq κ] {l : List (κ × β)} {k : κ} {v : β}
    (h : alook l k = some v) : k ∈ l.map Prod.fst :=
  List.mem_map.mpr ⟨(k, v), alook_mem h, rfl⟩

theorem alook_isSome_of_mem_keys {κ β : Type} [DecidableEq κ] {l : List (κ × β)} {k : κ}
    (h : k ∈ l.map Prod.fst) : ∃ v, alook l k = some v := by
  induction l with
  | nil => simp at h
  | cons p ps ih =>
    by_cases hpk : p.1 = k
    · exact ⟨p.2, by simp [alook, hpk]⟩
    · simp only [List.map_cons, List.mem_cons] at h
      rcases h with h | h
      · exact absurd h.symm hpk
      · obtain ⟨v, hv⟩ := ih h
        exact ⟨v, by simp [alook, hpk, hv]⟩

/-- Structural facts the prepLoop maintains: produced items stay inside
the item pool, the item pool only grows, and every item key stored in an
`eff_outputs` / `frac_inputs` entry is in the final item pool. -/
theorem prepLoop_closure (machines : List (String × FMachine))
    (modules : List (String × FModule)) :
    ∀ (rs : List (String × FRecipe)) effO fracI costs rmach items produced out,
    prepLoop machines modules rs effO fracI costs rmach items produced = .ok out →
    produced ⊆ items →
    (∀ r entry, alook effO r = some entry → ∀ p ∈ entry, p.1 ∈ items) →
    (∀ r entry, alook fracI r = some entry → ∀ p ∈ entry, p.1 ∈ items) →
    out.2.2.2.2.2 ⊆ out.2.2.2.2.1 ∧
    (∀ r entry, alook out.1 r = some entry → ∀ p ∈ entry, p.1 ∈ out.2.2.2.2.1) ∧
    (∀ r entry, alook out.2.1 r = some entry → ∀ p ∈ entry, p.1 ∈ out.2.2.2.2.1) ∧
    items ⊆ out.2.2.2.2.1 := by
  intro rs
  induction rs with
  | nil =>
    intro effO fracI costs rmach items produced out hok hsub heff hfrac
    simp only [prepLoop, Except.ok.injEq] at hok
    subst hok
    exact ⟨hsub, heff, hfrac, fun _ h => h⟩
  | cons pr rs ih =>
    intro effO fracI costs rmach items produced out hok hsub heff hfrac
    obtain ⟨rName, rd⟩ := pr
    simp only [prepLoop] at hok
    cases hm : alook machines rd.machine with
    | none => rw [hm] at hok; exact absurd hok (by simp)
    | some ms =>
      simp only [hm] at hok
      by_cases ht : rd.time_s ≤ 0
      · rw [if_pos ht] at hok; exact absurd hok (by simp)
      · rw [if_neg ht] at hok
        by_cases hetest : ms.crafts_per_min *
            (1 + ((alook modules rd.machine).getD {}).speed.getD 0) * 60 / rd.time_s ≤ 0
        · rw [if_pos hetest] at hok; exact absurd hok (by simp)
        · rw [if_neg hetest] at hok
          have hsub2 : (produced ++ List.map Prod.fst rd.out) ⊆
              (items ++ List.map Prod.fst rd.out ++ List.map Prod.fst rd.inp) := by
            intro i hi
            rcases List.mem_append.mp hi with hi | hi
            · exact List.mem_append.mpr (Or.inl (List.mem_append.mpr (Or.inl (hsub hi))))
            · exact List.mem_append.mpr (Or.inl (List.mem_append.mpr (Or.inr hi)))
          have heff2 : ∀ r entry,
              alook (effO ++ [(rName,
                rd.out.map (fun p => (p.1, p.2 *
                  (1 + ((alook modules rd.machine).getD {}).prod.getD 0))))]) r =
                some entry →
              ∀ p ∈ entry,
                p.1 ∈ items ++ List.map Prod.fst rd.out ++ List.map Prod.fst rd.inp := by
            intro r entry hr p hp
            rw [alook_append] at hr
            cases hold : alook effO r with
            | some e0 =>
              rw [hold] at hr
              simp only [Option.some.injEq] at hr
              subst hr
              exact List.mem_append.mpr (Or.inl (List.mem_append.mpr
                (Or.inl (heff r e0 hold p hp))))
            | none =>
              rw [hold] at hr
              simp only [alook] at hr
              by_cases hrn : rName = r
              · rw [if_pos hrn] at hr
                simp only [Option.some.injEq] at hr
                subst hr
                obtain ⟨q, hq, hqp⟩ := List.mem_map.mp hp
                apply List.mem_append.mpr (Or.inl (List.mem_append.mpr (Or.inr _)))
                rw [← hqp]
                exact List.mem_map.mpr ⟨q, hq, rfl⟩
              · rw [if_neg hrn] at hr
                exact absurd hr (by simp)
          have hfrac2 : ∀ r entry,
              alook (fracI ++ [(rName, rd.inp)]) r = some entry →
              ∀ p ∈ entry,
                p.1 ∈ items ++ List.map Prod.fst rd.out ++ List.map Prod.fst rd.inp := by
            intro r entry hr p hp
            rw [alook_append] at hr
            cases hold : alook fracI r with
            | some e0 =>
              rw [hold] at hr
              simp only [Option.some.injEq] at hr
              subst hr
              exact List.mem_append.mpr (Or.inl (List.mem_append.mpr
                (Or.inl (hfrac r e0 hold p hp))))
            | none =>
              rw [hold] at hr
              simp only [alook] at hr
              by_cases hrn : rName = r
              · rw [if_pos hrn] at hr
                simp only [Option.some.injEq] at hr
                subst hr
                exact List.mem_append.mpr (Or.inr (List.mem_map.mpr ⟨p, hp, rfl⟩))
              · rw [if_neg hrn] at hr
                exact absurd hr (by simp)
          obtain ⟨ha, hb, hc, hd⟩ := ih _ _ _ _ _ _ _ hok hsub2 heff2 hfrac2
          refine ⟨ha, hb, hc, fun i hi => hd ?_⟩
          exact List.mem_append.mpr (Or.inl (List.mem_append.mpr (Or.inl hi)))

/-- Field-level description of a successful `_preprocess_constants` run:
how the classification lists of the constants relate to each other. -/
theorem preprocess_spec
    (recipes : List (String × FRecipe)) (machines : List (String × FMachine))
    (modules : List (String × FModule)) (rawCaps machineCaps : List (String × ℚ))
    (targetItem : String) (c : FConsts)
    (hok : preprocess recipes machines modules rawCaps machineCaps targetItem = .ok c) :
    c.targetItem = targetItem ∧
    c.rawItems = rawCaps.map Prod.fst ∧
    c.rawCaps = rawCaps ∧
    c.machineCaps = machineCaps ∧
    c.machineTypes = sortStrings (machineCaps.map Prod.fst) ∧
    (∀ i, i ∈ c.producedItems → i ∈ c.allItems) ∧
    (∀ i, (i ∈ c.intermediateItems ↔
      (i ∈ c.producedItems ∧ i ∉ c.rawItems ∧ i ≠ c.targetItem) ∨
      (i = c.targetItem ∧ c.targetItem ∈ c.producedItems))) ∧
    (∀ i, i ∉ c.allItems → ∀ r entry,
      alook c.effOutputs r = some entry → alook entry i = none) ∧
    (∀ i, i ∉ c.allItems → ∀ r entry,
      alook c.fracInputs r = some entry → alook entry i = none) := by
  unfold preprocess at hok
  cases hp : prepLoop machines modules recipes [] [] [] [] [] [] with
  | error m => rw [hp] at hok; exact absurd hok (by simp)
  | ok out =>
    rw [hp] at hok
    obtain ⟨effO, fracI, costs, rmach, items, produced⟩ := out
    simp only [Except.ok.injEq] at hok
    obtain ⟨hcl1, hcl2, hcl3, _⟩ := prepLoop_closure machines modules recipes
      [] [] [] [] [] [] _ hp (by simp) (by intro r entry h; simp [alook] at h)
      (by intro r entry h; simp [alook] at h)
    rw [← hok]
    refine ⟨rfl, rfl, rfl, rfl, rfl, ?_, ?_, ?_, ?_⟩
    · intro i hip
      simp only at hip ⊢
      rw [mem_sortStrings, List.mem_dedup]
      exact hcl1 hip
    · intro i
      simp only
      by_cases htp : targetItem ∈ produced
      · rw [if_pos htp]
        simp only [List.mem_append, List.mem_filter, List.mem_dedup,
          List.mem_singleton, decide_eq_true_eq]
        constructor
        · rintro (⟨hp', hc⟩ | he)
          · exact Or.inl ⟨hp', hc.1, hc.2⟩
          · exact Or.inr ⟨he, htp⟩
        · rintro (⟨hp', h1, h2⟩ | ⟨he, _⟩)
          · exact Or.inl ⟨hp', h1, h2⟩
          · exact Or.inr he
      · rw [if_neg htp]
        simp only [List.mem_filter, List.mem_dedup, decide_eq_true_eq]
        constructor
        · rintro ⟨hp', h1, h2⟩
          exact Or.inl ⟨hp', h1, h2⟩
        · rintro (⟨hp', h1, h2⟩ | ⟨_, hpp⟩)
          · exact ⟨hp', h1, h2⟩
          · exact absurd hpp htp
    · intro i hia r entry he
      simp only at hia
      cases hv : alook entry i with
      | none => rfl
      | some v =>
        exfalso
        apply hia
        rw [mem_sortStrings, List.mem_dedup]
        exact hcl2 r entry he (i, v) (alook_mem hv)
    · intro i hia r entry he
      simp only at hia
      cases hv : alook entry i with
      | none => rfl
      | some v =>
        exfalso
        apply hia
        rw [mem_sortStrings, List.mem_dedup]
        exact hcl3 r entry he (i, v) (alook_mem hv)

/-- An item that no recipe entry mentions has zero net balance. -/
theorem Bi_eq_zero (c : FConsts) (x : String → ℚ) (i : String)
    (heff : ∀ r entry, alook c.effOutputs r = some entry → alook entry i = none)
    (hfrac : ∀ r entry, alook c.fracInputs r = some entry → alook entry i = none) :
    Bi c x i = 0 := by
  unfold Bi
  apply List.sum_eq_zero
  intro v hv
  obtain ⟨r, _, hvr⟩ := List.mem_map.mp hv
  rw [← hvr]
  have h1 : effOut c r i = 0 := by
    unfold effOut
    cases he : alook c.effOutputs r with
    | none => simp [alook]
    | some entry => simp [heff r entry he]
  have h2 : fracIn c r i = 0 := by
    unfold fracIn
    cases he : alook c.fracInputs r with
    | none => simp [alook]
    | some entry => simp [hfrac r entry he]
  rw [h1, h2]
  ring

/-- **C2** (amended).  For every Factory request whose preprocessing
succeeds, *provided the target item appears in some recipe's inputs or
outputs and raw caps are nonnegative (as the request schema demands)*,
the LP of `_build_model` imposes exactly the claimed constraint system:
the two are satisfied by the same nonnegative activity vectors, in
optimize mode (target balance = `target_rate`, even when the target item
is itself produced) and in max-rate mode (target balance = `T`, `T ≥ 0`).
Without the target-occurrence proviso the claim fails
(`c2_unknown_target_unconstrained`): the item loop runs over `all_items`
only, so a target item mentioned by no recipe gets no constraint. -/
theorem c2_lp_constraint_system
    (recipes : List (String × FRecipe)) (machines : List (String × FMachine))
    (modules : List (String × FModule)) (rawCaps machineCaps : List (String × ℚ))
    (targetItem : String) (c : FConsts)
    (hok : preprocess recipes machines modules rawCaps machineCaps targetItem = .ok c)
    (htarget : c.targetItem ∈ c.allItems)
    (hcaps : ∀ p ∈ rawCaps, 0 ≤ p.2)
    (rate T : ℚ) (x : String → ℚ) :
    (codeFeasOpt c rate x ↔ specFeasOpt c rate x) ∧
    (codeFeasMax c x T ↔ specFeasMax c x T) := by
  obtain ⟨htar, hraw, hrcaps, hmcaps, hmt, hprod, hinter, heffcl, hfraccl⟩ :=
    preprocess_spec recipes machines modules rawCaps machineCaps targetItem c hok
  have hmain : ∀ rr, codeFeasOpt c rr x ↔ specFeasOpt c rr x := by
    intro rr
    constructor
    · rintro ⟨hx, hitems, hmach⟩
      refine ⟨hx, ?_, ?_, ?_, ?_⟩
      · have hthis := hitems c.targetItem htarget
        unfold itemCon at hthis
        rw [if_pos rfl] at hthis
        exact hthis
      · intro i hip hir hit
        have hia : i ∈ c.allItems := hprod i hip
        have hthis := hitems i hia
        unfold itemCon at hthis
        rw [if_neg hit, if_pos ((hinter i).mpr (Or.inl ⟨hip, hir, hit⟩))] at hthis
        exact hthis
      · intro i hir hit
        by_cases hia : i ∈ c.allItems
        · have hthis := hitems i hia
          unfold itemCon at hthis
          have hni : i ∉ c.intermediateItems := by
            rw [hinter]
            rintro (⟨_, h2, _⟩ | ⟨h1, _⟩)
            · exact h2 hir
            · exact hit h1
          rw [if_neg hit, if_neg hni, if_pos hir] at hthis
          obtain ⟨h1, h2⟩ := hthis
          refine ⟨h1, ?_⟩
          intro cap hcap
          unfold rawCapCon at h2
          simp only [hcap] at h2
          exact h2
        · have hBi : Bi c x i = 0 :=
            Bi_eq_zero c x i (heffcl i hia) (hfraccl i hia)
          constructor
          · rw [hBi]
          · intro cap hcap
            rw [hBi]
            have hmemc : (i, cap) ∈ rawCaps := by
              rw [← hrcaps]
              exact alook_mem hcap
            have h0 := hcaps _ hmemc
            simpa using neg_nonpos.mpr h0
      · intro m cap hcap
        have hmem : m ∈ c.machineTypes := by
          rw [hmt]
          apply mem_sortStrings.mpr
          have := mem_keys_of_alook hcap
          rwa [hmcaps] at this
        have hthis := hmach m hmem
        unfold machCon at hthis
        simp only [hcap] at hthis
        exact hthis
    · rintro ⟨hx, htgt, hintm, hrawc, hmc⟩
      refine ⟨hx, ?_, ?_⟩
      · intro i _
        unfold itemCon
        by_cases h1 : i = c.targetItem
        · rw [if_pos h1, h1]
          exact htgt
        · rw [if_neg h1]
          by_cases h2 : i ∈ c.intermediateItems
          · rw [if_pos h2]
            rcases (hinter i).mp h2 with ⟨hp, hr, ht⟩ | ⟨he, _⟩
            · exact hintm i hp hr ht
            · exact absurd he h1
          · rw [if_neg h2]
            by_cases h3 : i ∈ c.rawItems
            · rw [if_pos h3]
              obtain ⟨hb1, hb2⟩ := hrawc i h3 h1
              refine ⟨hb1, ?_⟩
              unfold rawCapCon
              cases hcap : alook c.rawCaps i with
              | none => trivial
              | some cap => exact hb2 cap hcap
            · rw [if_neg h3]
              trivial
      · intro m _
        unfold machCon
        cases hcap : alook c.machineCaps m with
        | none => trivial
        | some cap => exact hmc m cap hcap
  exact ⟨hmain rate, and_congr Iff.rfl (hmain T)⟩

/-- Counterexample to C2 as stated: the target item `"gadget"` appears
in no recipe, so the LP imposes *no* target constraint — the zero vector
satisfies every constraint the code builds for target rate 5, while the
claimed constraint system demands `B_gadget(0) = 5`. -/
theorem c2_unknown_target_unconstrained :
    preprocess factoryCexRecipes factoryCexMachines [] [] [] "gadget" =
      .ok factoryCexC ∧
    codeFeasOpt factoryCexC 5 (fun _ => 0) ∧
    ¬ specFeasOpt factoryCexC 5 (fun _ => 0) := by
  refine ⟨?_, ?_, ?_⟩
  · norm_num [preprocess, prepLoop, alook, factoryCexRecipes, factoryCexMachines,
      factoryCexC, sortStrings, List.insertionSort, List.orderedInsert, strLeP,
      lexLe]
    decide
  · refine ⟨by intro r _; simp, ?_, by intro m hm; simp [factoryCexC] at hm⟩
    intro i hi
    unfold itemCon
    simp only [factoryCexC] at hi ⊢
    rcases List.mem_cons.mp hi with h | h
    · subst h
      norm_num [Bi, factoryCexC, effOut, fracIn, alook]
      decide
    · rcases List.mem_cons.mp h with h | h
      · subst h
        norm_num [Bi, factoryCexC, effOut, fracIn, alook]
        decide
      · simp at h
  · rintro ⟨_, htgt, _⟩
    rw [Bi, factoryCexC] at htgt
    norm_num [effOut, fracIn, alook, factoryCexC] at htgt

/-- Witness for the amended C2: a one-recipe chain producing the target
`"widget"` from capped raw `"ore"`; the code LP and the spec constraint
system agree on all activity vectors, instantiated at the zero vector
and target rate 0. -/
theorem c2_lp_constraint_system_witness :
    (codeFeasOpt (exceptD (preprocess
        [("r1", ⟨"m1", 60, [("ore", 1)], [("widget", 1)]⟩)]
        [("m1", ⟨60⟩)] [] [("ore", 100)] [("m1", 5)] "widget")) 0 (fun _ => 0) ↔
      specFeasOpt (exceptD (preprocess
        [("r1", ⟨"m1", 60, [("ore", 1)], [("widget", 1)]⟩)]
        [("m1", ⟨60⟩)] [] [("ore", 100)] [("m1", 5)] "widget")) 0 (fun _ => 0)) ∧
    (codeFeasMax (exceptD (preprocess
        [("r1", ⟨"m1", 60, [("ore", 1)], [("widget", 1)]⟩)]
        [("m1", ⟨60⟩)] [] [("ore", 100)] [("m1", 5)] "widget")) (fun _ => 0) 0 ↔
      specFeasMax (exceptD (preprocess
        [("r1", ⟨"m1", 60, [("ore", 1)], [("widget", 1)]⟩)]
        [("m1", ⟨60⟩)] [] [("ore", 100)] [("m1", 5)] "widget")) (fun _ => 0) 0) := by
  have hok : preprocess [("r1", ⟨"m1", 60, [("ore", 1)], [("widget", 1)]⟩)]
      [("m1", ⟨60⟩)] [] [("ore", 100)] [("m1", 5)] "widget" =
      .ok (exceptD (preprocess [("r1", ⟨"m1", 60, [("ore", 1)], [("widget", 1)]⟩)]
        [("m1", ⟨60⟩)] [] [("ore", 100)] [("m1", 5)] "widget")) := by
    norm_num [preprocess, prepLoop, alook, exceptD]
  apply c2_lp_constraint_system _ _ _ _ _ _ _ hok
  · norm_num [preprocess, prepLoop, alook, exceptD, sortStrings,
      List.insertionSort, List.orderedInsert, strLeP, lexLe]
    decide
  · intro p hp
    rcases List.mem_singleton.mp hp with h
    rw [h]
    norm_num

/-! ### C3: the transformed max-flow instance -/

theorem alook_eq_none_of_forall_ne {κ β : Type} [DecidableEq κ]
    {l : List (κ × β)} {k : κ} (h : ∀ p ∈ l, p.1 ≠ k) : alook l k = none := by
  induction l with
  | nil => rfl
  | cons p ps ih =>
    simp only [alook, if_neg (h p (List.mem_cons_self p ps))]
    exact ih (fun q hq => h q (List.mem_cons_of_mem p hq))

theorem forall_ne_of_alook_eq_none {κ β : Type} [DecidableEq κ]
    {l : List (κ × β)} {k : κ} (h : alook l k = none) : ∀ p ∈ l, p.1 ≠ k := by
  induction l with
  | nil => intro p hp; simp at hp
  | cons p ps ih =>
    intro q hq
    by_cases hpk : p.1 = k
    · simp [alook, hpk] at h
    · simp only [alook, if_neg hpk] at h
      rcases List.mem_cons.mp hq with hq | hq
      · rw [hq]; exact hpk
      · exact ih h q hq

theorem keys_dset {κ β : Type} [DecidableEq κ] (m : List (κ × β)) (k : κ) (v : β)
    (h : (alook m k).isSome) : (dset m k v).map Prod.fst = m.map Prod.fst := by
  unfold dset
  rw [if_pos h, List.map_map]
  apply List.map_congr_left
  intro p _
  by_cases hpk : p.1 = k
  · simp [hpk]
  · simp [hpk]

theorem alook_isSome_iff_mem_keys {κ β : Type} [DecidableEq κ]
    (l : List (κ × β)) (k : κ) : (alook l k).isSome ↔ k ∈ l.map Prod.fst := by
  constructor
  · intro h
    cases hc : alook l k with
    | none => rw [hc] at h; simp at h
    | some v => exact mem_keys_of_alook hc
  · intro h
    obtain ⟨v, hv⟩ := alook_isSome_of_mem_keys h
    rw [hv]
    rfl

theorem dset_append_of_left_none {κ β : Type} [DecidableEq κ]
    (m t : List (κ × β)) (k : κ) (v : β) (hm : alook m k = none) :
    dset (m ++ t) k v = m ++ dset t k v := by
  have hne := forall_ne_of_alook_eq_none hm
  unfold dset
  rw [alook_append, hm]
  simp only
  cases ht : alook t k with
  | none =>
    simp only [Option.isSome_none, Bool.false_eq_true, if_false, List.append_assoc]
  | some w =>
    simp only [Option.isSome_some, if_true, List.map_append]
    congr 1
    · conv_rhs => rw [← List.map_id m]
      apply List.map_congr_left
      intro p hp
      rw [if_neg (hne p hp)]
      rfl

theorem sum_map_ite_filter {α : Type} (l : List α) (P : α → Prop) [DecidablePred P]
    (f : α → ℚ) :
    (l.map (fun e => if P e then f e else 0)).sum = ((l.filter (fun e => P e)).map f).sum := by
  induction l with
  | nil => rfl
  | cons x xs ih =>
    by_cases h : P x
    · simp [h, ih]
    · simp [h, ih]

/-- One iteration of the node-splitting loop on fresh names appends one
split edge, the two balance entries, and possibly a source entry. -/
theorem procNode_fresh (st : PreState) (n : String) (r : NodeRec)
    (hbi : alook st.bal (n ++ "_in") = none)
    (hbo : alook st.bal (n ++ "_out") = none)
    (hg : glook st.g (n ++ "_in") (n ++ "_out") = none) :
    procNode st (n, r) =
      { g := st.g ++ [((n ++ "_in", n ++ "_out"), r.capVal)],
        bal := st.bal ++ [(n ++ "_in", -demandPos r), (n ++ "_out", supplyPos r)],
        sources := st.sources ++ (if 0 < r.supply.getD 0 then [n] else []),
        sink := if 0 < r.demand.getD 0 then some n else st.sink } := by
  have hio : n ++ "_in" ≠ n ++ "_out" := append_in_ne_append_out n n
  have hg1 : gset st.g (n ++ "_in") (n ++ "_out") r.capVal =
      st.g ++ [((n ++ "_in", n ++ "_out"), r.capVal)] := by
    unfold gset
    exact dset_of_alook_none _ _ _ hg
  have hb0 : dset (dset st.bal (n ++ "_in") 0) (n ++ "_out") 0 =
      st.bal ++ [(n ++ "_in", 0), (n ++ "_out", 0)] := by
    rw [dset_of_alook_none _ _ _ hbi,
      dset_append_of_left_none _ _ _ _ hbo,
      dset_of_alook_none _ _ _ (by simp [alook, hio])]
    simp
  unfold procNode
  simp only [hg1, hb0]
  by_cases hs : 0 < r.supply.getD 0
  · have hlookout : alook (st.bal ++ [(n ++ "_in", 0), (n ++ "_out", 0)]) (n ++ "_out") =
        some 0 := by
      rw [alook_append, hbo]
      simp [alook, hio]
    have hb1 : dset (st.bal ++ [(n ++ "_in", 0), (n ++ "_out", 0)]) (n ++ "_out")
        ((alook (st.bal ++ [(n ++ "_in", 0), (n ++ "_out", 0)]) (n ++ "_out")).getD 0 +
          r.supply.getD 0) =
        st.bal ++ [(n ++ "_in", 0), (n ++ "_out", 0 + r.supply.getD 0)] := by
      rw [hlookout, dset_append_of_left_none _ _ _ _ hbo]
      congr 1
      unfold dset
      rw [if_pos (by simp [alook, hio])]
      simp [hio, Ne.symm hio]
    rw [if_pos hs, if_pos hs, hb1]
    by_cases hd : 0 < r.demand.getD 0
    · have hlookin : alook (st.bal ++ [(n ++ "_in", 0), (n ++ "_out", 0 + r.supply.getD 0)])
          (n ++ "_in") = some 0 := by
        rw [alook_append, hbi]
        simp [alook]
      have hb2 : dset (st.bal ++ [(n ++ "_in", 0), (n ++ "_out", 0 + r.supply.getD 0)])
          (n ++ "_in")
          ((alook (st.bal ++ [(n ++ "_in", 0), (n ++ "_out", 0 + r.supply.getD 0)])
            (n ++ "_in")).getD 0 - r.demand.getD 0) =
          st.bal ++ [(n ++ "_in", 0 - r.demand.getD 0),
            (n ++ "_out", 0 + r.supply.getD 0)] := by
        rw [hlookin, dset_append_of_left_none _ _ _ _ hbi]
        congr 1
        unfold dset
        rw [if_pos (by simp [alook])]
        simp [hio, Ne.symm hio]
      rw [if_pos hd, if_pos hd, hb2]
      simp [supplyPos, demandPos, hs, hd]
    · rw [if_neg hd, if_neg hd]
      simp [supplyPos, demandPos, hs, hd]
  · rw [if_neg hs, if_neg hs]
    by_cases hd : 0 < r.demand.getD 0
    · have hlookin : alook (st.bal ++ [(n ++ "_in", 0), (n ++ "_out", 0)])
          (n ++ "_in") = some 0 := by
        rw [alook_append, hbi]
        simp [alook]
      have hb2 : dset (st.bal ++ [(n ++ "_in", 0), (n ++ "_out", 0)]) (n ++ "_in")
          ((alook (st.bal ++ [(n ++ "_in", 0), (n ++ "_out", 0)])
            (n ++ "_in")).getD 0 - r.demand.getD 0) =
          st.bal ++ [(n ++ "_in", 0 - r.demand.getD 0), (n ++ "_out", 0)] := by
        rw [hlookin, dset_append_of_left_none _ _ _ _ hbi]
        congr 1
        unfold dset
        rw [if_pos (by simp [alook])]
        simp [hio, Ne.symm hio]
      rw [if_pos hd, if_pos hd, hb2]
      simp [supplyPos, demandPos, hs, hd]
    · rw [if_neg hd, if_neg hd]
      simp [supplyPos, demandPos, hs, hd]

/-- The node-splitting loop (lines 22–39) over a dict of fresh node
names, characterized: split edges in order, balance entries in order,
source set in order, last demand node as sink. -/
theorem procNodes_state :
    ∀ (nodeData : NodeData) (st : PreState),
    (nodeData.map Prod.fst).Nodup →
    (∀ p ∈ nodeData, alook st.bal (p.1 ++ "_in") = none ∧
      alook st.bal (p.1 ++ "_out") = none ∧
      glook st.g (p.1 ++ "_in") (p.1 ++ "_out") = none) →
    procNodes nodeData st =
      { g := st.g ++ nodeData.map
          (fun p => ((p.1 ++ "_in", p.1 ++ "_out"), p.2.capVal)),
        bal := st.bal ++ nodeData.flatMap (fun p =>
          [(p.1 ++ "_in", -demandPos p.2), (p.1 ++ "_out", supplyPos p.2)]),
        sources := st.sources ++
          (nodeData.filter (fun p => 0 < p.2.supply.getD 0)).map Prod.fst,
        sink := nodeData.foldl
          (fun acc p => if 0 < p.2.demand.getD 0 then some p.1 else acc) st.sink } := by
  intro nodeData
  induction nodeData with
  | nil =>
    intro st _ _
    simp [procNodes]
  | cons p ps ih =>
    intro st hnd hfresh
    obtain ⟨hbi, hbo, hg⟩ := hfresh p (List.mem_cons_self p ps)
    simp only [List.map_cons, List.nodup_cons] at hnd
    have hstep := procNode_fresh st p.1 p.2 hbi hbo hg
    rw [Prod.mk.eta] at hstep
    unfold procNodes at ih ⊢
    rw [List.foldl_cons, hstep]
    rw [ih _ hnd.2 ?tail]
    case tail =>
      intro q hq
      obtain ⟨hq1, hq2, hq3⟩ := hfresh q (List.mem_cons_of_mem p hq)
      have hqp : q.1 ≠ p.1 := by
        intro he
        exact hnd.1 (he ▸ List.mem_map.mpr ⟨q, hq, rfl⟩)
      have h1 : ¬ (p.1 ++ "_in" = q.1 ++ "_in") :=
        fun h => hqp (append_in_inj h).symm
      have h2 : ¬ (p.1 ++ "_out" = q.1 ++ "_in") :=
        fun h => append_in_ne_append_out q.1 p.1 h.symm
      have h3 : ¬ (p.1 ++ "_in" = q.1 ++ "_out") :=
        append_in_ne_append_out p.1 q.1
      have h4 : ¬ (p.1 ++ "_out" = q.1 ++ "_out") :=
        fun h => hqp (append_out_inj h).symm
      refine ⟨?_, ?_, ?_⟩
      · rw [alook_append, hq1]
        simp [alook, h1, h2]
      · rw [alook_append, hq2]
        simp [alook, h3, h4]
      · unfold glook at hq3 ⊢
        rw [alook_append, hq3]
        simp [alook, Prod.ext_iff, h1]
    by_cases hs : 0 < p.2.supply.getD 0 <;>
      simp [List.filter_cons, hs, List.append_assoc]

/-- The edge pass (lines 41–56), characterized on valid input: it appends
one rewritten edge per original edge (no duplicate `(from, to)` pairs),
shifts balances by the lower bounds, and preserves the balance keys,
sources and sink. -/
theorem procEdges_state :
    ∀ (edges : List BEdge) (st : PreState) (acc : List OrigEdge),
    (∀ e ∈ edges, ¬ (e.hiVal.ltQ e.loVal)) →
    (∀ e ∈ edges, (alook st.bal (e.src ++ "_out")).isSome ∧
      (alook st.bal (e.dst ++ "_in")).isSome) →
    (edges.map (fun e => (e.src, e.dst))).Nodup →
    (∀ e ∈ edges, glook st.g (e.src ++ "_out") (e.dst ++ "_in") = none) →
    ∃ st', procEdges edges st acc =
        .ok (st', acc ++ edges.map (fun e => ⟨e.src, e.dst, e.loVal, e.hiVal⟩)) ∧
      st'.g = st.g ++ edges.map
        (fun e => ((e.src ++ "_out", e.dst ++ "_in"), e.hiVal.sub e.loVal)) ∧
      (∀ k, alook st'.bal k = (alook st.bal k).map (fun v => v + edgeDelta edges k)) ∧
      st'.bal.map Prod.fst = st.bal.map Prod.fst ∧
      st'.sources = st.sources ∧ st'.sink = st.sink := by
  intro edges
  induction edges with
  | nil =>
    intro st acc _ _ _ _
    refine ⟨st, by simp [procEdges], by simp, ?_, rfl, rfl, rfl⟩
    intro k
    cases h : alook st.bal k <;> simp [edgeDelta]
  | cons e es ih =>
    intro st acc hvalid hkeys hpairs hgfresh
    have hio : e.src ++ "_out" ≠ e.dst ++ "_in" :=
      fun h => append_in_ne_append_out e.dst e.src h.symm
    obtain ⟨hbuS, hbvS⟩ := hkeys e (List.mem_cons_self e es)
    cases hbu : alook st.bal (e.src ++ "_out") with
    | none => rw [hbu] at hbuS; simp at hbuS
    | some bu =>
    have hkeys1 : (dset st.bal (e.src ++ "_out") (bu - e.loVal)).map Prod.fst =
        st.bal.map Prod.fst := keys_dset _ _ _ (by rw [hbu]; rfl)
    have hbv1 : alook (dset st.bal (e.src ++ "_out") (bu - e.loVal)) (e.dst ++ "_in") =
        alook st.bal (e.dst ++ "_in") :=
      alook_dset_ne _ _ _ _ (fun h => hio h.symm)
    cases hbv : alook st.bal (e.dst ++ "_in") with
    | none => rw [hbv] at hbvS; simp at hbvS
    | some bv =>
    have hbv1' : alook (dset st.bal (e.src ++ "_out") (bu - e.loVal)) (e.dst ++ "_in") =
        some bv := by rw [hbv1, hbv]
    have hkeys2 : (dset (dset st.bal (e.src ++ "_out") (bu - e.loVal))
        (e.dst ++ "_in") (bv + e.loVal)).map Prod.fst = st.bal.map Prod.fst := by
      rw [keys_dset _ _ _ (by rw [hbv1']; rfl), hkeys1]
    simp only [List.map_cons, List.nodup_cons] at hpairs
    have hstep : procEdges (e :: es) st acc =
        procEdges es
          ⟨gset st.g (e.src ++ "_out") (e.dst ++ "_in") (e.hiVal.sub e.loVal),
           dset (dset st.bal (e.src ++ "_out") (bu - e.loVal))
             (e.dst ++ "_in") (bv + e.loVal), st.sources, st.sink⟩
          (acc ++ [⟨e.src, e.dst, e.loVal, e.hiVal⟩]) := by
      simp only [procEdges, if_neg (hvalid e (List.mem_cons_self e es)), hbu, hbv1']
    have hgapp : gset st.g (e.src ++ "_out") (e.dst ++ "_in") (e.hiVal.sub e.loVal) =
        st.g ++ [((e.src ++ "_out", e.dst ++ "_in"), e.hiVal.sub e.loVal)] := by
      unfold gset
      exact dset_of_alook_none _ _ _ (hgfresh e (List.mem_cons_self e es))
    obtain ⟨st', heq, hg, hbal, hkeysF, hsrc, hsink⟩ :=
      ih ⟨gset st.g (e.src ++ "_out") (e.dst ++ "_in") (e.hiVal.sub e.loVal),
          dset (dset st.bal (e.src ++ "_out") (bu - e.loVal))
            (e.dst ++ "_in") (bv + e.loVal), st.sources, st.sink⟩
        (acc ++ [⟨e.src, e.dst, e.loVal, e.hiVal⟩])
        (fun f hf => hvalid f (List.mem_cons_of_mem e hf))
        (by
          intro f hf
          have h1 := (hkeys f (List.mem_cons_of_mem e hf)).1
          have h2 := (hkeys f (List.mem_cons_of_mem e hf)).2
          rw [alook_isSome_iff_mem_keys] at h1 h2
          constructor
          · show (alook (dset (dset st.bal (e.src ++ "_out") (bu - e.loVal))
              (e.dst ++ "_in") (bv + e.loVal)) (f.src ++ "_out")).isSome = true
            rw [alook_isSome_iff_mem_keys, hkeys2]
            exact h1
          · show (alook (dset (dset st.bal (e.src ++ "_out") (bu - e.loVal))
              (e.dst ++ "_in") (bv + e.loVal)) (f.dst ++ "_in")).isSome = true
            rw [alook_isSome_iff_mem_keys, hkeys2]
            exact h2)
        hpairs.2
        (by
          intro f hf
          have hgf := hgfresh f (List.mem_cons_of_mem e hf)
          have hne : ¬ ((e.src ++ "_out", e.dst ++ "_in") =
              (f.src ++ "_out", f.dst ++ "_in")) := by
            intro h
            rw [Prod.mk.injEq] at h
            exact hpairs.1 (List.mem_map.mpr ⟨f, hf, by
              rw [Prod.mk.injEq]
              exact ⟨(append_out_inj h.1).symm, (append_in_inj h.2).symm⟩⟩)
          show glook (gset st.g (e.src ++ "_out") (e.dst ++ "_in")
            (e.hiVal.sub e.loVal)) (f.src ++ "_out") (f.dst ++ "_in") = none
          unfold glook at hgf ⊢
          rw [hgapp, alook_append, hgf]
          simp [alook, hne])
    refine ⟨st', ?_, ?_, ?_, ?_, hsrc, hsink⟩
    · rw [hstep, heq]
      simp
    · rw [hg]
      simp only [hgapp]
      simp
    · intro k
      rw [hbal k]
      have hstepbal : alook (dset (dset st.bal (e.src ++ "_out") (bu - e.loVal))
          (e.dst ++ "_in") (bv + e.loVal)) k =
          (alook st.bal k).map (fun v => v +
            ((if e.src ++ "_out" = k then -e.loVal else 0) +
             (if e.dst ++ "_in" = k then e.loVal else 0))) := by
        by_cases hk1 : k = e.src ++ "_out"
        · subst hk1
          rw [alook_dset_ne _ _ _ _ hio, alook_dset_self, hbu]
          have hc2 : (e.dst ++ "_in" = e.src ++ "_out") = False :=
            eq_false (Ne.symm hio)
          simp only [Option.map_some', Option.some.injEq, hc2, if_false,
            eq_self_iff_true, if_true]
          ring
        · by_cases hk2 : k = e.dst ++ "_in"
          · subst hk2
            rw [alook_dset_self, hbv]
            have hc1 : (e.src ++ "_out" = e.dst ++ "_in") = False := eq_false hio
            simp only [Option.map_some', Option.some.injEq, hc1, if_false,
              eq_self_iff_true, if_true]
            ring
          · rw [alook_dset_ne _ _ _ _ hk2, alook_dset_ne _ _ _ _ hk1]
            have hc1 : (e.src ++ "_out" = k) = False := eq_false (fun h => hk1 h.symm)
            have hc2 : (e.dst ++ "_in" = k) = False := eq_false (fun h => hk2 h.symm)
            cases alook st.bal k with
            | none => rfl
            | some v =>
              simp only [Option.map_some', Option.some.injEq, hc1, hc2, if_false]
              ring
      rw [hstepbal]
      cases alook st.bal k with
      | none => rfl
      | some v =>
        simp only [Option.map_some', Option.some.injEq]
        simp only [edgeDelta, List.map_cons, List.sum_cons]
        ring
    · rw [hkeysF]
      exact hkeys2

/-- The super-source/super-sink pass (lines 58–67), characterized: one
`S* → n` edge per positive balance, one `n → T*` edge per negative
balance, and the accumulated required flow. -/
theorem superPhase_go :
    ∀ (bal : List (String × ℚ)) (g : GraphL) (t0 : ℚ),
    (bal.map Prod.fst).Nodup →
    (∀ p ∈ bal, glook g sStar p.1 = none ∧ glook g p.1 tStar = none) →
    (∀ p ∈ bal, p.1 ≠ sStar ∧ p.1 ≠ tStar) →
    bal.foldl
      (fun q kv =>
        if 0 < kv.2 then (gset q.1 sStar kv.1 (.fin kv.2), q.2)
        else if kv.2 < 0 then (gset q.1 kv.1 tStar (.fin (-kv.2)), q.2 + (-kv.2))
        else q)
      (g, t0) =
    (g ++ bal.filterMap (fun p =>
        if 0 < p.2 then some ((sStar, p.1), QCap.fin p.2)
        else if p.2 < 0 then some ((p.1, tStar), QCap.fin (-p.2)) else none),
     t0 + (bal.map (fun p => if p.2 < 0 then -p.2 else 0)).sum) := by
  intro bal
  induction bal with
  | nil =>
    intro g t0 _ _ _
    simp
  | cons p ps ih =>
    intro g t0 hnd hfresh hside
    obtain ⟨hfs, hft⟩ := hfresh p (List.mem_cons_self p ps)
    simp only [List.map_cons, List.nodup_cons] at hnd
    have htail : ∀ gnew : GraphL,
        (∀ q ∈ ps, glook gnew sStar q.1 = none ∧ glook gnew q.1 tStar = none) →
        (∀ q ∈ ps, q.1 ≠ sStar ∧ q.1 ≠ tStar) := by
      intro _ _ q hq
      exact hside q (List.mem_cons_of_mem p hq)
    by_cases h1 : 0 < p.2
    · have happ : gset g sStar p.1 (QCap.fin p.2) =
          g ++ [((sStar, p.1), QCap.fin p.2)] := by
        unfold gset
        exact dset_of_alook_none _ _ _ hfs
      have hfresh2 : ∀ q ∈ ps,
          glook (g ++ [((sStar, p.1), QCap.fin p.2)]) sStar q.1 = none ∧
          glook (g ++ [((sStar, p.1), QCap.fin p.2)]) q.1 tStar = none := by
        intro q hq
        obtain ⟨hq1, hq2⟩ := hfresh q (List.mem_cons_of_mem p hq)
        have hqp : q.1 ≠ p.1 := by
          intro he
          exact hnd.1 (he ▸ List.mem_map.mpr ⟨q, hq, rfl⟩)
        have hqs : q.1 ≠ sStar := (hside q (List.mem_cons_of_mem p hq)).1
        have hpq : ¬ p.1 = q.1 := fun h => hqp h.symm
        have hsq : ¬ sStar = q.1 := fun h => hqs h.symm
        unfold glook at hq1 hq2 ⊢
        constructor
        · rw [alook_append, hq1]
          simp [alook, Prod.ext_iff, hpq]
        · rw [alook_append, hq2]
          simp [alook, Prod.ext_iff, hsq]
      rw [List.foldl_cons]
      simp only [if_pos h1, happ]
      rw [ih _ _ hnd.2 hfresh2 (htail _ hfresh2)]
      have hnneg : ¬ p.2 < 0 := by linarith
      simp [if_pos h1, if_neg hnneg, List.append_assoc]
    · by_cases h2 : p.2 < 0
      · have happ : gset g p.1 tStar (QCap.fin (-p.2)) =
            g ++ [((p.1, tStar), QCap.fin (-p.2))] := by
          unfold gset
          exact dset_of_alook_none _ _ _ hft
        have hfresh2 : ∀ q ∈ ps,
            glook (g ++ [((p.1, tStar), QCap.fin (-p.2))]) sStar q.1 = none ∧
            glook (g ++ [((p.1, tStar), QCap.fin (-p.2))]) q.1 tStar = none := by
          intro q hq
          obtain ⟨hq1, hq2⟩ := hfresh q (List.mem_cons_of_mem p hq)
          have hqp : q.1 ≠ p.1 := by
            intro he
            exact hnd.1 (he ▸ List.mem_map.mpr ⟨q, hq, rfl⟩)
          have hps : p.1 ≠ sStar := (hside p (List.mem_cons_self p ps)).1
          have hpq : ¬ p.1 = q.1 := fun h => hqp h.symm
          unfold glook at hq1 hq2 ⊢
          constructor
          · rw [alook_append, hq1]
            simp [alook, Prod.ext_iff, hps]
          · rw [alook_append, hq2]
            simp [alook, Prod.ext_iff, hpq]
        rw [List.foldl_cons]
        simp only [if_neg h1, if_pos h2, happ]
        rw [ih _ _ hnd.2 hfresh2 (htail _ hfresh2)]
        simp only [if_neg h1, if_pos h2, List.filterMap_cons, List.map_cons,
          List.sum_cons, List.append_assoc, Prod.mk.injEq, List.cons_append]
        constructor
        · rfl
        · ring
      · rw [List.foldl_cons]
        simp only [if_neg h1, if_neg h2]
        rw [ih _ _ hnd.2 (fun q hq => hfresh q (List.mem_cons_of_mem p hq))
          (fun q hq => hside q (List.mem_cons_of_mem p hq))]
        simp [if_neg h1, if_neg h2]

theorem sum_map_neg {α : Type} (l : List α) (f : α → ℚ) :
    (l.map (fun a => -(f a))).sum = -((l.map f).sum) := by
  induction l with
  | nil => simp
  | cons x xs ih => simp [ih]; ring

/-- Lookup of the split edge of node `n` in the phase-1 graph. -/
theorem alook_splitGraph :
    ∀ (nodeData : NodeData), (nodeData.map Prod.fst).Nodup →
    ∀ n r, (n, r) ∈ nodeData →
    alook (nodeData.map (fun p => ((p.1 ++ "_in", p.1 ++ "_out"), p.2.capVal)))
      (n ++ "_in", n ++ "_out") = some r.capVal := by
  intro nodeData
  induction nodeData with
  | nil => intro _ n r h; simp at h
  | cons p ps ih =>
    intro hnd n r hmem
    simp only [List.map_cons, List.nodup_cons] at hnd
    rcases List.mem_cons.mp hmem with h | h
    · rw [← h]
      simp [alook]
    · have hnp : n ≠ p.1 := by
        intro he
        exact hnd.1 (he ▸ List.mem_map.mpr ⟨(n, r), h, rfl⟩)
      have hne : ¬ (p.1 ++ "_in", p.1 ++ "_out") = (n ++ "_in", n ++ "_out") := by
        intro hcon
        rw [Prod.mk.injEq] at hcon
        exact hnp (append_in_inj hcon.1).symm
      simp only [List.map_cons, alook, if_neg hne]
      exact ih hnd.2 n r h

/-- Lookup of the rewritten edge of `e` in the phase-2 edge list. -/
theorem alook_edgeGraph :
    ∀ (edges : List BEdge), (edges.map (fun e => (e.src, e.dst))).Nodup →
    ∀ e ∈ edges,
    alook (edges.map (fun f => ((f.src ++ "_out", f.dst ++ "_in"), f.hiVal.sub f.loVal)))
      (e.src ++ "_out", e.dst ++ "_in") = some (e.hiVal.sub e.loVal) := by
  intro edges
  induction edges with
  | nil => intro _ e h; simp at h
  | cons f fs ih =>
    intro hnd e hmem
    simp only [List.map_cons, List.nodup_cons] at hnd
    rcases List.mem_cons.mp hmem with h | h
    · rw [← h]
      simp [alook]
    · have hne : ¬ (f.src ++ "_out", f.dst ++ "_in") =
          (e.src ++ "_out", e.dst ++ "_in") := by
        intro hcon
        rw [Prod.mk.injEq] at hcon
        exact hnd.1 (List.mem_map.mpr ⟨e, h, by
          rw [Prod.mk.injEq]
          exact ⟨(append_out_inj hcon.1).symm, (append_in_inj hcon.2).symm⟩⟩)
      simp only [List.map_cons, alook, if_neg hne]
      exact ih hnd.2 e h

theorem keys_balInit (nodeData : NodeData) :
    (balInit nodeData).map Prod.fst =
      nodeData.flatMap (fun p => [p.1 ++ "_in", p.1 ++ "_out"]) := by
  induction nodeData with
  | nil => rfl
  | cons p ps ih =>
    simp only [balInit] at ih ⊢
    simp [ih]

theorem balInit_keys_nodup :
    ∀ (nodeData : NodeData), (nodeData.map Prod.fst).Nodup →
    ((balInit nodeData).map Prod.fst).Nodup := by
  intro nodeData
  induction nodeData with
  | nil => intro _; simp [balInit]
  | cons p ps ih =>
    intro hnd
    simp only [List.map_cons, List.nodup_cons] at hnd
    rw [keys_balInit] at ih ⊢
    simp only [List.flatMap_cons, List.cons_append, List.nil_append,
      List.nodup_cons]
    have hshape : ∀ k ∈ ps.flatMap (fun q => [q.1 ++ "_in", q.1 ++ "_out"]),
        ∃ q ∈ ps, k = q.1 ++ "_in" ∨ k = q.1 ++ "_out" := by
      intro k hk
      obtain ⟨q, hq, hkq⟩ := List.mem_flatMap.mp hk
      rcases List.mem_cons.mp hkq with h | h
      · exact ⟨q, hq, Or.inl h⟩
      · rcases List.mem_cons.mp h with h | h
        · exact ⟨q, hq, Or.inr h⟩
        · simp at h
    refine ⟨?_, ?_, ih hnd.2⟩
    · intro hin
      rcases List.mem_cons.mp hin with h | h
      · exact append_in_ne_append_out p.1 p.1 h
      · obtain ⟨q, hq, hcase⟩ := hshape _ h
        rcases hcase with hc | hc
        · have : p.1 = q.1 := append_in_inj hc
          exact hnd.1 (this ▸ List.mem_map.mpr ⟨q, hq, rfl⟩)
        · exact append_in_ne_append_out p.1 q.1 hc
    · intro hout
      obtain ⟨q, hq, hcase⟩ := hshape _ hout
      rcases hcase with hc | hc
      · exact append_in_ne_append_out q.1 p.1 hc.symm
      · have : p.1 = q.1 := append_out_inj hc
        exact hnd.1 (this ▸ List.mem_map.mpr ⟨q, hq, rfl⟩)

/-- Lookup of the two balance entries of node `n` in the phase-1 balance
dict. -/
theorem alook_balInit :
    ∀ (nodeData : NodeData), (nodeData.map Prod.fst).Nodup →
    ∀ n r, (n, r) ∈ nodeData →
    alook (balInit nodeData) (n ++ "_in") = some (-demandPos r) ∧
    alook (balInit nodeData) (n ++ "_out") = some (supplyPos r) := by
  intro nodeData
  induction nodeData with
  | nil => intro _ n r h; simp at h
  | cons p ps ih =>
    intro hnd n r hmem
    simp only [List.map_cons, List.nodup_cons] at hnd
    rcases List.mem_cons.mp hmem with h | h
    · rw [← h]
      constructor
      · simp [balInit, alook]
      · have hoi : ¬ (n ++ "_in" = n ++ "_out") := append_in_ne_append_out n n
        simp [balInit, alook, hoi]
    · have hnp : n ≠ p.1 := by
        intro he
        exact hnd.1 (he ▸ List.mem_map.mpr ⟨(n, r), h, rfl⟩)
      have h1 : ¬ (p.1 ++ "_in" = n ++ "_in") :=
        fun hc => hnp (append_in_inj hc).symm
      have h2 : ¬ (p.1 ++ "_out" = n ++ "_in") :=
        fun hc => append_in_ne_append_out n p.1 hc.symm
      have h3 : ¬ (p.1 ++ "_in" = n ++ "_out") :=
        append_in_ne_append_out p.1 n
      have h4 : ¬ (p.1 ++ "_out" = n ++ "_out") :=
        fun hc => hnp (append_out_inj hc).symm
      obtain ⟨ih1, ih2⟩ := ih hnd.2 n r h
      constructor
      · simp only [balInit, List.flatMap_cons, List.cons_append, List.nil_append,
          alook, if_neg h1, if_neg h2]
        exact ih1
      · simp only [balInit, List.flatMap_cons, List.cons_append, List.nil_append,
          alook, if_neg h3, if_neg h4]
        exact ih2

theorem alook_pre_super (G : GraphL)
    (h1 : ∀ q ∈ G, q.1.1 ≠ sStar) (h2 : ∀ q ∈ G, q.1.2 ≠ tStar) (k : String) :
    alook G (sStar, k) = none ∧ alook G (k, tStar) = none := by
  constructor
  · apply alook_eq_none_of_forall_ne
    intro q hq hcon
    exact h1 q hq (by rw [hcon])
  · apply alook_eq_none_of_forall_ne
    intro q hq hcon
    exact h2 q hq (by rw [hcon])

theorem alook_superEdges_notmem :
    ∀ (bal : List (String × ℚ)),
    (∀ p ∈ bal, p.1 ≠ sStar ∧ p.1 ≠ tStar) →
    ∀ k, k ∉ bal.map Prod.fst → k ≠ sStar → k ≠ tStar →
    alook (bal.filterMap (fun p =>
        if 0 < p.2 then some ((sStar, p.1), QCap.fin p.2)
        else if p.2 < 0 then some ((p.1, tStar), QCap.fin (-p.2)) else none))
      (sStar, k) = none ∧
    alook (bal.filterMap (fun p =>
        if 0 < p.2 then some ((sStar, p.1), QCap.fin p.2)
        else if p.2 < 0 then some ((p.1, tStar), QCap.fin (-p.2)) else none))
      (k, tStar) = none := by
  intro bal
  induction bal with
  | nil => intro _ k _ _ _; simp [alook]
  | cons p ps ih =>
    intro hside k hk hks hkt
    simp only [List.map_cons, List.mem_cons] at hk
    push_neg at hk
    obtain ⟨hk1, hk2⟩ := hk
    have hps := hside p (List.mem_cons_self p ps)
    have ihk := ih (fun q hq => hside q (List.mem_cons_of_mem p hq)) k hk2 hks hkt
    by_cases h1 : 0 < p.2
    · simp only [List.filterMap_cons, if_pos h1]
      constructor
      · simp only [alook, Prod.mk.injEq]
        rw [if_neg (by intro hcon; exact hk1 hcon.2.symm)]
        exact ihk.1
      · simp only [alook, Prod.mk.injEq]
        rw [if_neg (by intro hcon; exact hks hcon.1.symm)]
        exact ihk.2
    · by_cases h2 : p.2 < 0
      · simp only [List.filterMap_cons, if_neg h1, if_pos h2]
        constructor
        · simp only [alook, Prod.mk.injEq]
          rw [if_neg (by intro hcon; exact hps.1 hcon.1)]
          exact ihk.1
        · simp only [alook, Prod.mk.injEq]
          rw [if_neg (by intro hcon; exact hk1 hcon.1.symm)]
          exact ihk.2
      · simp only [List.filterMap_cons, if_neg h1, if_neg h2]
        exact ihk

theorem alook_superEdges :
    ∀ (bal : List (String × ℚ)),
    ((bal.map Prod.fst).Nodup) →
    (∀ p ∈ bal, p.1 ≠ sStar ∧ p.1 ≠ tStar) →
    ∀ k b, alook bal k = some b →
    alook (bal.filterMap (fun p =>
        if 0 < p.2 then some ((sStar, p.1), QCap.fin p.2)
        else if p.2 < 0 then some ((p.1, tStar), QCap.fin (-p.2)) else none))
      (sStar, k) = (if 0 < b then some (QCap.fin b) else none) ∧
    alook (bal.filterMap (fun p =>
        if 0 < p.2 then some ((sStar, p.1), QCap.fin p.2)
        else if p.2 < 0 then some ((p.1, tStar), QCap.fin (-p.2)) else none))
      (k, tStar) = (if b < 0 then some (QCap.fin (-b)) else none) := by
  intro bal
  induction bal with
  | nil => intro _ _ k b h; simp [alook] at h
  | cons p ps ih =>
    intro hnd hside k b hab
    simp only [List.map_cons, List.nodup_cons] at hnd
    have hps := hside p (List.mem_cons_self p ps)
    by_cases hpk : p.1 = k
    · have hb : b = p.2 := by
        simp only [alook, if_pos hpk] at hab
        exact (Option.some.injEq _ _ ▸ hab).symm
      subst hb
      have hks : k ≠ sStar := hpk ▸ hps.1
      have hkt : k ≠ tStar := hpk ▸ hps.2
      have hknotin : k ∉ ps.map Prod.fst := hpk ▸ hnd.1
      have hnone := alook_superEdges_notmem ps
        (fun q hq => hside q (List.mem_cons_of_mem p hq)) k hknotin hks hkt
      by_cases h1 : 0 < p.2
      · simp only [List.filterMap_cons, if_pos h1]
        constructor
        · simp only [alook]
          rw [if_pos (by rw [hpk])]
        · simp only [alook]
          rw [if_neg (by intro hcon; exact hks (congrArg Prod.fst hcon).symm),
            hnone.2, if_neg (by linarith)]
      · by_cases h2 : p.2 < 0
        · simp only [List.filterMap_cons, if_neg h1, if_pos h2]
          constructor
          · simp only [alook]
            rw [if_neg (by intro hcon; exact hps.1 (congrArg Prod.fst hcon)),
              hnone.1]
          · simp only [alook]
            rw [if_pos (by rw [hpk])]
        · simp only [List.filterMap_cons, if_neg h1, if_neg h2]
          exact hnone
    · have htail : alook ps k = some b := by
        simpa only [alook, if_neg hpk] using hab
      have hkinps : k ∈ ps.map Prod.fst := by
        rw [← alook_isSome_iff_mem_keys]
        rw [htail]
        rfl
      obtain ⟨q, hq, hqk⟩ := List.mem_map.mp hkinps
      have hkside := hside q (List.mem_cons_of_mem p hq)
      have hks : k ≠ sStar := hqk ▸ hkside.1
      have ihk := ih hnd.2 (fun q hq => hside q (List.mem_cons_of_mem p hq)) k b htail
      by_cases h1 : 0 < p.2
      · simp only [List.filterMap_cons, if_pos h1]
        constructor
        · simp only [alook]
          rw [if_neg (by intro hcon; exact hpk (congrArg Prod.snd hcon))]
          exact ihk.1
        · simp only [alook]
          rw [if_neg (by intro hcon; exact hks (congrArg Prod.fst hcon).symm)]
          exact ihk.2
      · by_cases h2 : p.2 < 0
        · simp only [List.filterMap_cons, if_neg h1, if_pos h2]
          constructor
          · simp only [alook]
            rw [if_neg (by intro hcon; exact hps.1 (congrArg Prod.fst hcon))]
            exact ihk.1
          · simp only [alook]
            rw [if_neg (by intro hcon; exact hpk (congrArg Prod.fst hcon))]
            exact ihk.2
        · simp only [List.filterMap_cons, if_neg h1, if_neg h2]
          exact ihk

theorem edgeDelta_out (edges : List BEdge) (n : String) :
    edgeDelta edges (n ++ "_out") = -(loOutSum edges n) := by
  induction edges with
  | nil => simp [edgeDelta, loOutSum]
  | cons e es ih =>
    have hdst : ¬ (e.dst ++ "_in" = n ++ "_out") := append_in_ne_append_out e.dst n
    have hstep : edgeDelta (e :: es) (n ++ "_out") =
        ((if e.src ++ "_out" = n ++ "_out" then -e.loVal else 0) +
          (if e.dst ++ "_in" = n ++ "_out" then e.loVal else 0)) +
          edgeDelta es (n ++ "_out") := by
      simp [edgeDelta]
    by_cases h : e.src = n
    · have hsrc : e.src ++ "_out" = n ++ "_out" := by rw [h]
      have hfil : loOutSum (e :: es) n = e.loVal + loOutSum es n := by
        simp [loOutSum, List.filter_cons, h]
      rw [hstep, hfil, ih, if_pos hsrc, if_neg hdst]
      ring
    · have hsrc : ¬ (e.src ++ "_out" = n ++ "_out") := fun hc => h (append_out_inj hc)
      have hfil : loOutSum (e :: es) n = loOutSum es n := by
        simp [loOutSum, List.filter_cons, h]
      rw [hstep, hfil, ih, if_neg hsrc, if_neg hdst]
      ring

theorem edgeDelta_in (edges : List BEdge) (n : String) :
    edgeDelta edges (n ++ "_in") = loInSum edges n := by
  induction edges with
  | nil => simp [edgeDelta, loInSum]
  | cons e es ih =>
    have hsrc : ¬ (e.src ++ "_out" = n ++ "_in") :=
      fun hc => append_in_ne_append_out n e.src hc.symm
    have hstep : edgeDelta (e :: es) (n ++ "_in") =
        ((if e.src ++ "_out" = n ++ "_in" then -e.loVal else 0) +
          (if e.dst ++ "_in" = n ++ "_in" then e.loVal else 0)) +
          edgeDelta es (n ++ "_in") := by
      simp [edgeDelta]
    by_cases h : e.dst = n
    · have hdst : e.dst ++ "_in" = n ++ "_in" := by rw [h]
      have hfil : loInSum (e :: es) n = e.loVal + loInSum es n := by
        simp [loInSum, List.filter_cons, h]
      rw [hstep, hfil, ih, if_neg hsrc, if_pos hdst]
      ring
    · have hdst : ¬ (e.dst ++ "_in" = n ++ "_in") := fun hc => h (append_in_inj hc)
      have hfil : loInSum (e :: es) n = loInSum es n := by
        simp [loInSum, List.filter_cons, h]
      rw [hstep, hfil, ih, if_neg hsrc, if_neg hdst]
      ring

/-! ### C3: the Belts max-flow transformation -/

/-- **C3.**  Corrected transformation claim.  On every Belts request with
pairwise-distinct node names, pairwise-distinct `(from, to)` edge pairs,
declared edge endpoints and `lo ≤ hi` on every edge, lines 13–67 of
`solve_belt_problem` build exactly the spec's instance: every node `n`
yields the split edge `n_in → n_out` of capacity `cap` (infinite if
uncapped); every original edge `(u → v)` yields `u_out → v_in` of
capacity `hi − lo`; the net balance is `supply − Σ lo(outgoing)` at
`n_out` and `Σ lo(incoming) − demand` at `n_in`; a node with balance
`b > 0` gets the edge `S* → node` of capacity `b`, one with `b < 0` the
edge `node → T*` of capacity `−b`, and no other `S*`/`T*` edges exist;
and `total_demand_required = Σ max(0, −b)`.  The distinct-pair
hypothesis is necessary: `nx.DiGraph.add_edge` overwrites an existing
`(u_out, v_in)` edge, see the parallel-edge counterexample. -/
theorem c3_transform_construction (edges : List BEdge) (nodeData : NodeData)
    (hnd : (nodeData.map Prod.fst).Nodup)
    (hpairs : (edges.map (fun e => (e.src, e.dst))).Nodup)
    (hvalid : ∀ e ∈ edges, ¬ (e.hiVal.ltQ e.loVal))
    (hdecl : ∀ e ∈ edges, e.src ∈ nodeData.map Prod.fst ∧
      e.dst ∈ nodeData.map Prod.fst) :
    ∃ st, buildTransformed edges nodeData = .ok st ∧
      st.origEdges = edges.map (fun e => ⟨e.src, e.dst, e.loVal, e.hiVal⟩) ∧
      (∀ n r, (n, r) ∈ nodeData →
        glook st.g (n ++ "_in") (n ++ "_out") = some r.capVal) ∧
      (∀ e ∈ edges,
        glook st.g (e.src ++ "_out") (e.dst ++ "_in") =
          some (e.hiVal.sub e.loVal)) ∧
      (∀ n r, (n, r) ∈ nodeData →
        alook st.bal (n ++ "_out") = some (supplyPos r - loOutSum edges n) ∧
        alook st.bal (n ++ "_in") = some (loInSum edges n - demandPos r)) ∧
      (∀ k b, alook st.bal k = some b →
        glook st.g sStar k = (if 0 < b then some (QCap.fin b) else none) ∧
        glook st.g k tStar = (if b < 0 then some (QCap.fin (-b)) else none)) ∧
      st.total = (st.bal.map (fun p => max 0 (-p.2))).sum := by
  have hst1 := procNodes_state nodeData ⟨[], [], [], none⟩ hnd
    (fun p _ => ⟨rfl, rfl, rfl⟩)
  have hst1bal : (procNodes nodeData (⟨[], [], [], none⟩ : PreState)).bal =
      balInit nodeData := by
    rw [hst1]
    simp [balInit]
  have hst1g : (procNodes nodeData (⟨[], [], [], none⟩ : PreState)).g =
      nodeData.map (fun p => ((p.1 ++ "_in", p.1 ++ "_out"), p.2.capVal)) := by
    rw [hst1]
    simp
  have hkeysIn : ∀ e ∈ edges,
      (alook (balInit nodeData) (e.src ++ "_out")).isSome ∧
      (alook (balInit nodeData) (e.dst ++ "_in")).isSome := by
    intro e he
    obtain ⟨h1, h2⟩ := hdecl e he
    constructor
    · rw [alook_isSome_iff_mem_keys, keys_balInit]
      obtain ⟨p, hp, hpe⟩ := List.mem_map.mp h1
      exact List.mem_flatMap.mpr ⟨p, hp, by rw [hpe]; simp⟩
    · rw [alook_isSome_iff_mem_keys, keys_balInit]
      obtain ⟨p, hp, hpe⟩ := List.mem_map.mp h2
      exact List.mem_flatMap.mpr ⟨p, hp, by rw [hpe]; simp⟩
  have hgfresh : ∀ e ∈ edges,
      alook (nodeData.map (fun p => ((p.1 ++ "_in", p.1 ++ "_out"), p.2.capVal)))
        (e.src ++ "_out", e.dst ++ "_in") = none := by
    intro e _
    apply alook_eq_none_of_forall_ne
    intro q hq hcon
    obtain ⟨p, _, hpq⟩ := List.mem_map.mp hq
    rw [← hpq] at hcon
    exact append_in_ne_append_out p.1 e.src (congrArg Prod.fst hcon)
  obtain ⟨st2, heq, hg2, hbal2, hkeys2, hsrc2, hsink2⟩ :=
    procEdges_state edges (procNodes nodeData ⟨[], [], [], none⟩) [] hvalid
      (by intro e he; rw [hst1bal]; exact hkeysIn e he)
      hpairs
      (by intro e he; unfold glook; rw [hst1g]; exact hgfresh e he)
  have hg2' : st2.g =
      nodeData.map (fun p => ((p.1 ++ "_in", p.1 ++ "_out"), p.2.capVal)) ++
        edges.map (fun e => ((e.src ++ "_out", e.dst ++ "_in"),
          e.hiVal.sub e.loVal)) := by
    rw [hg2, hst1g]
  have hbal2' : ∀ k, alook st2.bal k =
      (alook (balInit nodeData) k).map (fun v => v + edgeDelta edges k) := by
    intro k
    rw [hbal2, hst1bal]
  have hkeys2' : st2.bal.map Prod.fst = (balInit nodeData).map Prod.fst := by
    rw [hkeys2, hst1bal]
  have hnd2 : (st2.bal.map Prod.fst).Nodup := by
    rw [hkeys2']
    exact balInit_keys_nodup nodeData hnd
  have hshape : ∀ k ∈ (balInit nodeData).map Prod.fst,
      ∃ q, k = q ++ "_in" ∨ k = q ++ "_out" := by
    intro k hk
    rw [keys_balInit] at hk
    obtain ⟨p, _, hkp⟩ := List.mem_flatMap.mp hk
    rcases List.mem_cons.mp hkp with h | h
    · exact ⟨p.1, Or.inl h⟩
    · rcases List.mem_cons.mp h with h | h
      · exact ⟨p.1, Or.inr h⟩
      · simp at h
  have hside2 : ∀ p ∈ st2.bal, p.1 ≠ sStar ∧ p.1 ≠ tStar := by
    intro p hp
    have hk : p.1 ∈ st2.bal.map Prod.fst := List.mem_map.mpr ⟨p, hp, rfl⟩
    rw [hkeys2'] at hk
    obtain ⟨q, hq⟩ := hshape p.1 hk
    rcases hq with h | h
    · exact ⟨by rw [h]; exact append_in_ne_sStar q,
        by rw [h]; exact append_in_ne_tStar q⟩
    · exact ⟨by rw [h]; exact append_out_ne_sStar q,
        by rw [h]; exact append_out_ne_tStar q⟩
  have hG1 : ∀ q ∈ st2.g, q.1.1 ≠ sStar := by
    intro q hq
    rw [hg2'] at hq
    rcases List.mem_append.mp hq with h | h
    · obtain ⟨p, _, hpq⟩ := List.mem_map.mp h
      rw [← hpq]
      exact append_in_ne_sStar p.1
    · obtain ⟨e, _, hpq⟩ := List.mem_map.mp h
      rw [← hpq]
      exact append_out_ne_sStar e.src
  have hG2 : ∀ q ∈ st2.g, q.1.2 ≠ tStar := by
    intro q hq
    rw [hg2'] at hq
    rcases List.mem_append.mp hq with h | h
    · obtain ⟨p, _, hpq⟩ := List.mem_map.mp h
      rw [← hpq]
      exact append_out_ne_tStar p.1
    · obtain ⟨e, _, hpq⟩ := List.mem_map.mp h
      rw [← hpq]
      exact append_in_ne_tStar e.dst
  have hfresh2 : ∀ p ∈ st2.bal,
      glook st2.g sStar p.1 = none ∧ glook st2.g p.1 tStar = none :=
    fun p _ => alook_pre_super st2.g hG1 hG2 p.1
  have hsup := superPhase_go st2.bal st2.g 0 hnd2 hfresh2 hside2
  have hsg : superPhase st2.bal st2.g =
      (st2.g ++ st2.bal.filterMap (fun p =>
          if 0 < p.2 then some ((sStar, p.1), QCap.fin p.2)
          else if p.2 < 0 then some ((p.1, tStar), QCap.fin (-p.2)) else none),
        0 + (st2.bal.map (fun p => if p.2 < 0 then -p.2 else 0)).sum) := by
    unfold superPhase
    exact hsup
  have hbuild : buildTransformed edges nodeData = .ok
      ⟨(superPhase st2.bal st2.g).1, st2.bal, st2.sources,
        edges.map (fun e => ⟨e.src, e.dst, e.loVal, e.hiVal⟩),
        (superPhase st2.bal st2.g).2⟩ := by
    unfold buildTransformed
    simp only [heq, List.nil_append]
  have hA : ∀ n r, (n, r) ∈ nodeData →
      glook (superPhase st2.bal st2.g).1 (n ++ "_in") (n ++ "_out") =
        some r.capVal := by
    intro n r hmem
    have h1 := alook_splitGraph nodeData hnd n r hmem
    unfold glook
    simp only [hsg]
    rw [hg2', List.append_assoc, alook_append]
    simp only [h1]
  have hB : ∀ e ∈ edges,
      glook (superPhase st2.bal st2.g).1 (e.src ++ "_out") (e.dst ++ "_in") =
        some (e.hiVal.sub e.loVal) := by
    intro e he
    have h0 := hgfresh e he
    have h1 := alook_edgeGraph edges hpairs e he
    unfold glook
    simp only [hsg]
    rw [hg2', List.append_assoc, alook_append]
    simp only [h0]
    rw [alook_append]
    simp only [h1]
  have hC : ∀ n r, (n, r) ∈ nodeData →
      alook st2.bal (n ++ "_out") = some (supplyPos r - loOutSum edges n) ∧
      alook st2.bal (n ++ "_in") = some (loInSum edges n - demandPos r) := by
    intro n r hmem
    obtain ⟨hin, hout⟩ := alook_balInit nodeData hnd n r hmem
    constructor
    · rw [hbal2', hout, Option.map_some', edgeDelta_out]
      congr 1
      ring
    · rw [hbal2', hin, Option.map_some', edgeDelta_in]
      congr 1
      ring
  have hD : ∀ k b, alook st2.bal k = some b →
      glook (superPhase st2.bal st2.g).1 sStar k =
        (if 0 < b then some (QCap.fin b) else none) ∧
      glook (superPhase st2.bal st2.g).1 k tStar =
        (if b < 0 then some (QCap.fin (-b)) else none) := by
    intro k b hkb
    have hpre := alook_pre_super st2.g hG1 hG2 k
    have hsupk := alook_superEdges st2.bal hnd2 hside2 k b hkb
    constructor
    · unfold glook
      simp only [hsg]
      rw [alook_append]
      simp only [hpre.1]
      exact hsupk.1
    · unfold glook
      simp only [hsg]
      rw [alook_append]
      simp only [hpre.2]
      exact hsupk.2
  have hE : (superPhase st2.bal st2.g).2 =
      (st2.bal.map (fun p => max 0 (-p.2))).sum := by
    simp only [hsg]
    rw [zero_add]
    refine congrArg List.sum (List.map_congr_left ?_)
    intro p _
    rcases lt_or_le p.2 0 with h | h
    · rw [if_pos h, max_eq_right (by linarith)]
    · rw [if_neg (not_lt.mpr h), max_eq_left (by linarith)]
  exact ⟨_, hbuild, rfl, hA, hB, hC, hD, hE⟩

/-- **C3 counterexample.**  The claim fails on parallel edges: of the two
original edges `a → b` (capacities 5 and 3, no lower bounds) the claim
requires an edge `a_out → b_in` of capacity `5 − 0 = 5` for the first
one, but `nx.DiGraph.add_edge` overwrites the pair, leaving the single
capacity `3` of the last edge. -/
theorem c3_parallel_edges_overwrite :
    (⟨"a", "b", none, some 5⟩ : BEdge) ∈ beltsCexEdges ∧
    QCap.sub (BEdge.hiVal ⟨"a", "b", none, some 5⟩)
      (BEdge.loVal ⟨"a", "b", none, some 5⟩) = QCap.fin 5 ∧
    buildTransformed beltsCexEdges beltsCexNodes = .ok beltsCexSt ∧
    glook beltsCexSt.g ("a" ++ "_out") ("b" ++ "_in") = some (QCap.fin 3) := by
  have hb : buildTransformed beltsCexEdges beltsCexNodes = .ok
      { g := [(("a_in", "a_out"), .inf), (("b_in", "b_out"), .inf),
              (("a_out", "b_in"), .fin 3)],
        bal := [("a_in", 0), ("a_out", 0), ("b_in", 0), ("b_out", 0)],
        sources := [], origEdges := [⟨"a", "b", 0, .fin 5⟩, ⟨"a", "b", 0, .fin 3⟩],
        total := 0 } := by
    simp +decide [beltsCexEdges, beltsCexNodes, buildTransformed, procNodes,
      procNode, procEdges, superPhase, gset, dset, alook, NodeRec.capVal,
      BEdge.loVal, BEdge.hiVal, QCap.ltQ, QCap.sub, sStar, tStar]
  have hst : beltsCexSt =
      { g := [(("a_in", "a_out"), .inf), (("b_in", "b_out"), .inf),
              (("a_out", "b_in"), .fin 3)],
        bal := [("a_in", 0), ("a_out", 0), ("b_in", 0), ("b_out", 0)],
        sources := [], origEdges := [⟨"a", "b", 0, .fin 5⟩, ⟨"a", "b", 0, .fin 3⟩],
        total := 0 } := by
    unfold beltsCexSt
    rw [hb]
    rfl
  refine ⟨?_, ?_, ?_, ?_⟩
  · unfold beltsCexEdges
    exact List.mem_cons_self _ _
  · norm_num [BEdge.hiVal, BEdge.loVal, QCap.sub]
  · rw [hst]
    exact hb
  · rw [hst]
    simp +decide [glook, alook]

/-- Witness for C3 on a two-node, one-edge instance with a lower bound,
a supply and a demand. -/
theorem c3_transform_construction_witness :
    ∃ st, buildTransformed ([⟨"a", "b", some 1, some 4⟩] : List BEdge)
        [("a", { supply := some 2 }), ("b", { demand := some 2 })] = .ok st ∧
      st.origEdges = ([⟨"a", "b", some 1, some 4⟩] : List BEdge).map
        (fun e => (⟨e.src, e.dst, e.loVal, e.hiVal⟩ : OrigEdge)) ∧
      (∀ n r, (n, r) ∈ ([("a", { supply := some 2 }),
          ("b", { demand := some 2 })] : NodeData) →
        glook st.g (n ++ "_in") (n ++ "_out") = some r.capVal) ∧
      (∀ e ∈ [(⟨"a", "b", some 1, some 4⟩ : BEdge)],
        glook st.g (e.src ++ "_out") (e.dst ++ "_in") =
          some (e.hiVal.sub e.loVal)) ∧
      (∀ n r, (n, r) ∈ ([("a", { supply := some 2 }),
          ("b", { demand := some 2 })] : NodeData) →
        alook st.bal (n ++ "_out") =
          some (supplyPos r - loOutSum ([⟨"a", "b", some 1, some 4⟩] : List BEdge) n) ∧
        alook st.bal (n ++ "_in") =
          some (loInSum ([⟨"a", "b", some 1, some 4⟩] : List BEdge) n - demandPos r)) ∧
      (∀ k b, alook st.bal k = some b →
        glook st.g sStar k = (if 0 < b then some (QCap.fin b) else none) ∧
        glook st.g k tStar = (if b < 0 then some (QCap.fin (-b)) else none)) ∧
      st.total = (st.bal.map (fun p => max 0 (-p.2))).sum :=
  c3_transform_construction [⟨"a", "b", some 1, some 4⟩]
    [("a", { supply := some 2 }), ("b", { demand := some 2 })]
    (by decide) (by decide)
    (by
      intro e he
      rw [List.mem_singleton] at he
      subst he
      norm_num [BEdge.hiVal, BEdge.loVal, QCap.ltQ])
    (by decide)

/-! ### C9: determinism across runs -/

/-- **C9.**  The determinism claim fails in the Factory success path:
`_format_success_output` iterates the CPython set
`constants["raw_items"]` to build `raw_consumption_per_min`, so the
response's key order follows the process's set-enumeration order, which
hash randomization varies between runs.  On the two-raw-item request,
`["ore", "coal"]` and `["coal", "ore"]` are both valid enumerations of
the set (each is a permutation of its elements), and the two runs they
model produce different response documents. -/
theorem c9_set_iteration_nondeterminism :
    preprocess factoryC9Recipes factoryC9Machines [] factoryC9RawCaps []
      "widget" = .ok factoryC9C ∧
    List.Perm ["ore", "coal"] factoryC9C.rawItems ∧
    List.Perm ["coal", "ore"] factoryC9C.rawItems ∧
    solveFactorySSIter factoryC9Recipes factoryC9Machines [] factoryC9RawCaps
        [] "widget" ["ore", "coal"] factoryC9Out factoryC9Out ≠
      solveFactorySSIter factoryC9Recipes factoryC9Machines [] factoryC9RawCaps
        [] "widget" ["coal", "ore"] factoryC9Out factoryC9Out := by
  have hp : preprocess factoryC9Recipes factoryC9Machines [] factoryC9RawCaps []
      "widget" = .ok factoryC9C := by
    norm_num [preprocess, prepLoop, alook, factoryC9Recipes, factoryC9Machines,
      factoryC9RawCaps, factoryC9C, sortStrings, List.insertionSort,
      List.orderedInsert, strLeP, lexLe]
    decide
  have h1 : solveFactorySSIter factoryC9Recipes factoryC9Machines []
      factoryC9RawCaps [] "widget" ["ore", "coal"] factoryC9Out factoryC9Out =
      .ok [("r1", 60)] [] [("ore", 60), ("coal", 60)] := by
    have hw1 : ¬ ("widget" = "ore") := by decide
    have hw2 : ¬ ("widget" = "coal") := by decide
    simp only [solveFactorySSIter, hp]
    norm_num [factoryC9Out, formatSuccessOutputIter, factoryC9C, clampedX,
      usage, costOf, machOf, Bi, effOut, fracIn, alook, tol, hw1, hw2,
      List.filterMap_cons, List.filterMap_nil]
  have h2 : solveFactorySSIter factoryC9Recipes factoryC9Machines []
      factoryC9RawCaps [] "widget" ["coal", "ore"] factoryC9Out factoryC9Out =
      .ok [("r1", 60)] [] [("coal", 60), ("ore", 60)] := by
    have hw1 : ¬ ("widget" = "ore") := by decide
    have hw2 : ¬ ("widget" = "coal") := by decide
    simp only [solveFactorySSIter, hp]
    norm_num [factoryC9Out, formatSuccessOutputIter, factoryC9C, clampedX,
      usage, costOf, machOf, Bi, effOut, fracIn, alook, tol, hw1, hw2,
      List.filterMap_cons, List.filterMap_nil]
  refine ⟨hp, by decide, by decide, ?_⟩
  rw [h1, h2]
  decide
